import Mathlib

/-!
# sdf-raycaster: a sphere-tracing renderer

Shallow embedding of `src/sdf-raycaster/main.cpp`.

Modelling conventions.

* The C++ type `float` is idealised as the real numbers `ℝ`: every arithmetic
  operation is the exact one, so rounding, overflow to infinity and NaN are not
  represented.  Decimal literals such as `0.4f` denote the exact decimal.
* `glm::vec3` is the structure `Vec3` of three reals.  The library functions used by
  the program are given their documented meaning: `glm::dot`, `glm::cross`,
  `glm::length v = sqrt (dot v v)` and `glm::normalize v = v / length v`.
  Both `scalar * vector` and `vector * scalar` of glm are written `s • v`.
* The mutable globals `CamDir`, `CamUp`, `CamRight` are the fields of a `Camera`
  value returned by `InitCamera` and passed to `CreateRay`.
* The unbounded `for` loop of `SphereTrace` is a function defined by well-founded
  recursion on the loop variable `t`; it is total.  `SphereTraceFuel` is the same loop
  with a bound on the number of executions of its body.
* `std::int32_t` values are integers; the index computation of `main` wraps modulo
  `2 ^ 32` after every operation (`wrapInt32`).  The conversion of a `float` to an 8-bit
  channel truncates and keeps the result modulo `2 ^ 8` (`floatToU8`).
* The two loops of `main` are the list `mainWrites` of the writes they make, in order.
-/

noncomputable section

namespace SdfRaycaster

/-- A `glm::vec3` whose three `float` components are idealised as reals. -/
@[ext]
structure Vec3 where
  x : ℝ
  y : ℝ
  z : ℝ

namespace Vec3

instance : Zero Vec3 := ⟨⟨0, 0, 0⟩⟩

instance : Add Vec3 := ⟨fun a b => ⟨a.x + b.x, a.y + b.y, a.z + b.z⟩⟩

instance : Sub Vec3 := ⟨fun a b => ⟨a.x - b.x, a.y - b.y, a.z - b.z⟩⟩

instance : Neg Vec3 := ⟨fun a => ⟨-a.x, -a.y, -a.z⟩⟩

/-- Product of a scalar and a vector, componentwise (`s * v` and `v * s` in glm). -/
instance : SMul ℝ Vec3 := ⟨fun s v => ⟨s * v.x, s * v.y, s * v.z⟩⟩

/-- The function `glm::dot`. -/
def dot (a b : Vec3) : ℝ := a.x * b.x + a.y * b.y + a.z * b.z

/-- The function `glm::cross`. -/
def cross (a b : Vec3) : Vec3 :=
  ⟨a.y * b.z - b.y * a.z, a.z * b.x - b.z * a.x, a.x * b.y - b.x * a.y⟩

/-- The function `glm::length`: the square root of `dot v v`. -/
def length (v : Vec3) : ℝ := Real.sqrt (dot v v)

/-- The function `glm::normalize`: `v` divided by its length.  The C++ result is
undefined (NaN) for the zero vector; every statement below that speaks about a normalised
vector also establishes that the vector is not zero. -/
def normalize (v : Vec3) : Vec3 := ⟨v.x / length v, v.y / length v, v.z / length v⟩

end Vec3

open Vec3

/-- The value `std::min a b`, which is `(b < a) ? b : a`. -/
def stdMin (a b : ℝ) : ℝ := if b < a then b else a

namespace constants

/-- Width of the output image (`std::int32_t`). -/
def Width : ℤ := 512

/-- Height of the output image (`std::int32_t`). -/
def Height : ℤ := 512

/-- Camera position. -/
def Eye : Vec3 := ⟨0.1, 0, 1.5⟩

/-- Point the camera looks at. -/
def Target : Vec3 := ⟨0.1, 0.0, 0.0⟩

/-- Up hint of the camera frame. -/
def Up : Vec3 := ⟨0, 1, 0⟩

/-- Vertical field of view, `glm::radians(45.0f)`. -/
def FOV : ℝ := 45 * (Real.pi / 180)

/-- Start of the traced interval. -/
def tMin : ℝ := 0.0

/-- End of the traced interval. -/
def tMax : ℝ := 10.0

/-- Global Lipschitz bound. -/
def Lambda : ℝ := 1.0

/-- Colour of the pixels whose ray misses. -/
def BackgroundColor : Vec3 := ⟨0.98, 0.98, 0.98⟩

end constants

/-- The value `std::numeric_limits<float>::max()`, the largest finite binary32 number
`(2 ^ 24 - 1) * 2 ^ 104`. -/
def FLT_MAX : ℝ := (2 ^ 24 - 1) * 2 ^ 104

/-- The three globals `CamDir`, `CamUp`, `CamRight`. -/
structure Camera where
  CamDir : Vec3
  CamUp : Vec3
  CamRight : Vec3

/-- A ray: origin and direction. -/
structure Ray where
  org : Vec3
  dir : Vec3

/-- Pixel coordinate to normalised device coordinate. -/
def ToNDC (val maxVal : ℝ) : ℝ := 2.0 * (val + 0.5) / maxVal - 1.0

/-- Body of `InitCamera` with the three constants it reads as arguments. -/
def InitCameraFrom (Eye Target Up : Vec3) : Camera :=
  let CamDir := normalize (Target - Eye)
  -- Gram-Schmidt orthogonalization
  let CamUp := normalize (Up - dot Up CamDir • CamDir)
  let CamRight := cross CamDir CamUp
  ⟨CamDir, CamUp, CamRight⟩

/-- The camera frame the program computes from its constants. -/
def InitCamera : Camera := InitCameraFrom constants.Eye constants.Target constants.Up

/-- The vector `CreateRay` normalises to obtain the ray direction. -/
def CreateRayVec (cam : Camera) (x y : ℝ) : Vec3 :=
  let aspect : ℝ := (constants.Width : ℝ) / (constants.Height : ℝ)
  let pixelWidth := Real.tan (constants.FOV * 0.5) * aspect
  let pixelHeight := Real.tan (constants.FOV * 0.5)
  x • (pixelWidth • cam.CamRight) + y • (pixelHeight • cam.CamUp) + cam.CamDir

/-- The ray through the point `(x, y)` of the image plane. -/
def CreateRay (cam : Camera) (x y : ℝ) : Ray :=
  ⟨constants.Eye, normalize (CreateRayVec cam x y)⟩

/-- Signed distance to the sphere of radius `rad` centred at the origin. -/
def sphere (p : Vec3) (rad : ℝ) : ℝ := length p - rad

/-- The scene: two spheres combined with `std::min`. -/
def sdf (p : Vec3) : ℝ :=
  stdMin (sphere p 0.4) (sphere (p - ⟨0.5, 0.0, 0.0⟩) 0.2)

/-- The hit threshold `eps` local to `SphereTrace`. -/
def eps : ℝ := 0.001

/-- The `for` loop of `SphereTrace` entered with loop variable `t`: `some t` when the loop
returns `t` from its body, `none` when the loop condition `t < tMax` fails. -/
def SphereTraceLoop (ray : Ray) (t : ℝ) : Option ℝ :=
  if t < constants.tMax then
    let p := ray.org + t • ray.dir
    let dist := |sdf p|
    if dist < eps then
      some t
    else
      -- step adaptively using the distance and the global Lipschitz bound
      SphereTraceLoop ray (t + dist / constants.Lambda)
  else
    none
termination_by ⌈(constants.tMax - t) / eps⌉₊
decreasing_by
  rename_i hlt hdist
  have he : (0 : ℝ) < eps := by norm_num [eps]
  have hpos : 0 < (constants.tMax - t) / eps := div_pos (sub_pos.mpr hlt) he
  have hstep : (constants.tMax - (t + |sdf (ray.org + t • ray.dir)| / constants.Lambda)) / eps
      ≤ (constants.tMax - t) / eps - 1 := by
    have hsplit : (constants.tMax - t) / eps - 1 = (constants.tMax - t - eps) / eps := by
      field_simp
    rw [hsplit, div_le_div_iff_of_pos_right he]
    simp only [constants.Lambda]
    linarith
  rw [Nat.lt_ceil]
  rcases le_or_lt ((constants.tMax - (t + |sdf (ray.org + t • ray.dir)| / constants.Lambda)) / eps) 0
    with h | h
  · rw [Nat.ceil_eq_zero.mpr h]
    simpa using hpos
  · have := Nat.ceil_lt_add_one h.le
    linarith

/-- The function `SphereTrace`: the value the loop returns, or the largest finite `float`
when the loop ends without returning. -/
def SphereTrace (ray : Ray) : ℝ :=
  match SphereTraceLoop ray constants.tMin with
  | some t => t
  | none => FLT_MAX

/-- The update `t += dist / Lambda` of the loop body of `SphereTrace`, as a function of
the loop variable. -/
def SphereTraceStep (ray : Ray) (t : ℝ) : ℝ :=
  t + |sdf (ray.org + t • ray.dir)| / constants.Lambda

/-- Value of the loop variable of `SphereTrace` after `k` updates, starting from `tMin`. -/
def SphereTraceIterate (ray : Ray) (k : ℕ) : ℝ := (SphereTraceStep ray)^[k] constants.tMin

/-- The loop of `SphereTrace` entered with loop variable `t` and stopped after at most
`n` executions of its body: `none` when `n` executions do not end the loop, otherwise the
value `SphereTrace` returns. -/
def SphereTraceFuel (ray : Ray) : ℕ → ℝ → Option ℝ
  | 0, t => if t < constants.tMax then none else some FLT_MAX
  | n + 1, t =>
    if t < constants.tMax then
      let p := ray.org + t • ray.dir
      let dist := |sdf p|
      if dist < eps then
        some t
      else
        SphereTraceFuel ray n (t + dist / constants.Lambda)
    else
      some FLT_MAX

/-- The vector `normal` normalises: the one-sided differences of `sdf` along the axes. -/
def normalVec (p : Vec3) : Vec3 :=
  let eps : ℝ := 0.001
  let x := sdf (p + ⟨eps, 0, 0⟩) - sdf p
  let y := sdf (p + ⟨0, eps, 0⟩) - sdf p
  let z := sdf (p + ⟨0, 0, eps⟩) - sdf p
  ⟨x, y, z⟩

/-- The function `normal`: estimate of the surface normal at `p`. -/
def normal (p : Vec3) : Vec3 := normalize (normalVec p)

/-- The function `glm::max x y`, which is `(x < y) ? y : x`. -/
def glmMax (x y : ℝ) : ℝ := if x < y then y else x

/-- The function `glm::min x y`, which is `(y < x) ? y : x`. -/
def glmMin (x y : ℝ) : ℝ := if y < x then y else x

/-- The function `glm::clamp x minVal maxVal`, which is `min (max x minVal) maxVal`. -/
def clamp (x minVal maxVal : ℝ) : ℝ := glmMin (glmMax x minVal) maxVal

/-- The function `glm::clamp` applied to the three components of a vector. -/
def clampVec (v : Vec3) (minVal maxVal : ℝ) : Vec3 :=
  ⟨clamp v.x minVal maxVal, clamp v.y minVal maxVal, clamp v.z minVal maxVal⟩

/-- Conversion of a `float` to an integer: the fractional part is discarded. -/
def truncToInt (x : ℝ) : ℤ := if 0 ≤ x then ⌊x⌋ else ⌈x⌉

/-- Conversion of a `float` to an 8-bit unsigned integer: truncation, kept modulo `2 ^ 8`. -/
def floatToU8 (x : ℝ) : ℤ := truncToInt x % 2 ^ 8

/-- A `glm::u8vec3`: three 8-bit unsigned components. -/
structure U8Vec3 where
  x : ℤ
  y : ℤ
  z : ℤ

/-- Conversion `glm::u8vec3(v)` of a float vector, component by component. -/
def toU8Vec3 (v : Vec3) : U8Vec3 := ⟨floatToU8 v.x, floatToU8 v.y, floatToU8 v.z⟩

/-- A 32-bit signed integer result: the value modulo `2 ^ 32` in `[-2 ^ 31, 2 ^ 31)`. -/
def wrapInt32 (n : ℤ) : ℤ := (n + 2 ^ 31) % 2 ^ 32 - 2 ^ 31

/-- The index `x + (Height - 1 - y) * Width` written by `main`, in 32-bit arithmetic. -/
def pixelIndex (x y : ℤ) : ℤ :=
  wrapInt32 (x + wrapInt32 (wrapInt32 (wrapInt32 (constants.Height - 1) - y) * constants.Width))

/-- Number of cells of the buffer `main` allocates, `Width * Height` in 32-bit arithmetic. -/
def imageSize : ℤ := wrapInt32 (constants.Width * constants.Height)

/-- The ray `main` creates through the pixel at `(x, y)`. -/
def pixelRay (x y : ℤ) : Ray :=
  CreateRay InitCamera (ToNDC x constants.Width) (ToNDC y constants.Height)

/-- The colour `main` computes for the pixel at `(x, y)`, before conversion to 8 bits. -/
def pixelColor (x y : ℤ) : Vec3 :=
  -- create a ray through the pixel at (x,y)
  let ray := pixelRay x y
  let color := constants.BackgroundColor
  let distance := SphereTrace ray
  if distance < constants.tMax then
    let ndotl := dot (normal (ray.org + distance • ray.dir)) (-ray.dir)
    ⟨ndotl, 0.0, 0.0⟩
  else
    color

/-- The value `main` stores for the pixel at `(x, y)`. -/
def pixelStored (x y : ℤ) : U8Vec3 :=
  toU8Vec3 ((255.0 : ℝ) • clampVec (pixelColor x y) 0.0 1.0)

/-- The writes `main` makes into the buffer, in the order of its two loops: the index
written and the value stored there. -/
def mainWrites : List (ℤ × U8Vec3) :=
  (List.range constants.Width.toNat).flatMap fun (x : ℕ) =>
    (List.range constants.Height.toNat).map fun (y : ℕ) =>
      (pixelIndex x y, pixelStored x y)

/-! ## Specification-side vocabulary -/

/-- Specification-side definition, in the words of the specification:
`sphereSDF(p, c, r) = length(p - c) - r`. -/
def sphereSDF (p c : Vec3) (r : ℝ) : ℝ := length (p - c) - r

/-- Centre of the smaller sphere, the literal `glm::vec3(0.5, 0.0f, 0.0f)` of `sdf`. -/
def smallCentre : Vec3 := ⟨0.5, 0, 0⟩

/-- Specification-side definition: `p` is strictly inside the sphere of centre `c` and
radius `r`. -/
def StrictlyInside (p c : Vec3) (r : ℝ) : Prop := length (p - c) < r

/-- Specification-side definition: `q` lies on the surface of the sphere of centre `c`
and radius `r`. -/
def OnSphere (q c : Vec3) (r : ℝ) : Prop := length (q - c) = r

/-- Specification-side definition: `q` lies on the surface of one of the two spheres of
the scene. -/
def OnSceneSurface (q : Vec3) : Prop := OnSphere q 0 0.4 ∨ OnSphere q smallCentre 0.2

/-- Specification-side definition: the camera basis is orthonormal, that is, its three
vectors have length one and are pairwise orthogonal. -/
def Orthonormal (cam : Camera) : Prop :=
  length cam.CamDir = 1 ∧ length cam.CamUp = 1 ∧ length cam.CamRight = 1 ∧
  dot cam.CamDir cam.CamUp = 0 ∧ dot cam.CamDir cam.CamRight = 0 ∧
  dot cam.CamUp cam.CamRight = 0

/-- Specification-side definition: `u` is parallel to `v`, a scalar multiple of it. -/
def Parallel (u v : Vec3) : Prop := ∃ k : ℝ, u = k • v

/-! ## Vector algebra -/

namespace Vec3

@[simp]
theorem zero_x : (0 : Vec3).x = 0 := rfl
@[simp]
theorem zero_y : (0 : Vec3).y = 0 := rfl
@[simp]
theorem zero_z : (0 : Vec3).z = 0 := rfl
@[simp]
theorem add_x (a b : Vec3) : (a + b).x = a.x + b.x := rfl
@[simp]
theorem add_y (a b : Vec3) : (a + b).y = a.y + b.y := rfl
@[simp]
theorem add_z (a b : Vec3) : (a + b).z = a.z + b.z := rfl
@[simp]
theorem sub_x (a b : Vec3) : (a - b).x = a.x - b.x := rfl
@[simp]
theorem sub_y (a b : Vec3) : (a - b).y = a.y - b.y := rfl
@[simp]
theorem sub_z (a b : Vec3) : (a - b).z = a.z - b.z := rfl
@[simp]
theorem neg_x (a : Vec3) : (-a).x = -a.x := rfl
@[simp]
theorem neg_y (a : Vec3) : (-a).y = -a.y := rfl
@[simp]
theorem neg_z (a : Vec3) : (-a).z = -a.z := rfl
@[simp]
theorem smul_x (s : ℝ) (a : Vec3) : (s • a).x = s * a.x := rfl
@[simp]
theorem smul_y (s : ℝ) (a : Vec3) : (s • a).y = s * a.y := rfl
@[simp]
theorem smul_z (s : ℝ) (a : Vec3) : (s • a).z = s * a.z := rfl

theorem dot_self_nonneg (v : Vec3) : 0 ≤ dot v v := by
  unfold dot
  nlinarith [mul_self_nonneg v.x, mul_self_nonneg v.y, mul_self_nonneg v.z]

theorem length_nonneg (v : Vec3) : 0 ≤ length v := Real.sqrt_nonneg _

theorem length_mul_self (v : Vec3) : length v * length v = dot v v :=
  Real.mul_self_sqrt (dot_self_nonneg v)

theorem length_sq (v : Vec3) : length v ^ 2 = dot v v := by
  rw [sq, length_mul_self]

theorem dot_self_eq_zero {v : Vec3} (h : dot v v = 0) : v = 0 := by
  unfold dot at h
  have hx : v.x = 0 := by nlinarith [mul_self_nonneg v.x, mul_self_nonneg v.y, mul_self_nonneg v.z]
  have hy : v.y = 0 := by nlinarith [mul_self_nonneg v.x, mul_self_nonneg v.y, mul_self_nonneg v.z]
  have hz : v.z = 0 := by nlinarith [mul_self_nonneg v.x, mul_self_nonneg v.y, mul_self_nonneg v.z]
  ext <;> simp [hx, hy, hz]

theorem length_eq_zero_iff {v : Vec3} : length v = 0 ↔ v = 0 := by
  constructor
  · intro h
    apply dot_self_eq_zero
    rw [← length_mul_self, h, mul_zero]
  · rintro rfl
    simp [length, dot]

theorem length_pos {v : Vec3} (h : v ≠ 0) : 0 < length v :=
  lt_of_le_of_ne (length_nonneg v) (fun h0 => h (length_eq_zero_iff.mp h0.symm))

/-- Cauchy-Schwarz. -/
theorem dot_le_length_mul (a b : Vec3) : dot a b ≤ length a * length b := by
  have hsq : dot a b ^ 2 ≤ (length a * length b) ^ 2 := by
    rw [mul_pow, length_sq, length_sq]
    unfold dot
    nlinarith [sq_nonneg (a.x * b.y - a.y * b.x), sq_nonneg (a.x * b.z - a.z * b.x),
      sq_nonneg (a.y * b.z - a.z * b.y)]
  exact le_of_abs_le (abs_le_of_sq_le_sq hsq (mul_nonneg (length_nonneg a) (length_nonneg b)))

/-- Triangle inequality. -/
theorem length_add_le (a b : Vec3) : length (a + b) ≤ length a + length b := by
  have hab := dot_le_length_mul a b
  have ha := length_mul_self a
  have hb := length_mul_self b
  have hna := length_nonneg a
  have hnb := length_nonneg b
  have hexp : dot (a + b) (a + b) = dot a a + 2 * dot a b + dot b b := by
    simp only [dot, add_x, add_y, add_z]
    ring
  rw [show length (a + b) = Real.sqrt (dot (a + b) (a + b)) from rfl, Real.sqrt_le_iff]
  refine ⟨add_nonneg hna hnb, ?_⟩
  rw [hexp]
  nlinarith

theorem sub_zero_eq (p : Vec3) : p - 0 = p := by
  ext <;> simp

theorem length_neg (a : Vec3) : length (-a) = length a := by
  simp [length, dot]

theorem neg_sub_eq (a b : Vec3) : -(a - b) = b - a := by
  ext <;> simp

theorem length_sub_comm (a b : Vec3) : length (a - b) = length (b - a) := by
  rw [← neg_sub_eq b a, length_neg]

theorem sub_add_sub_eq (a b c : Vec3) : (a - b) + (b - c) = a - c := by
  ext <;> simp

/-- Triangle inequality through an intermediate point. -/
theorem length_sub_le (a b c : Vec3) : length (a - c) ≤ length (a - b) + length (b - c) := by
  rw [← sub_add_sub_eq a b c]
  exact length_add_le _ _

/-- Reverse triangle inequality. -/
theorem abs_length_sub_length_le (a b : Vec3) : |length a - length b| ≤ length (a - b) := by
  have h1 := length_sub_le a b 0
  have h2 := length_sub_le b a 0
  rw [sub_zero_eq, sub_zero_eq] at h1 h2
  rw [length_sub_comm b a] at h2
  rw [abs_le]
  constructor <;> linarith

theorem length_smul (s : ℝ) (v : Vec3) : length (s • v) = |s| * length v := by
  have h : dot (s • v) (s • v) = s ^ 2 * dot v v := by
    simp only [dot, smul_x, smul_y, smul_z]
    ring
  rw [length, h, Real.sqrt_mul (sq_nonneg s), Real.sqrt_sq_eq_abs]
  rfl

end Vec3

/-! ## The scene -/

theorem stdMin_eq_min (a b : ℝ) : stdMin a b = min a b := by
  unfold stdMin
  split_ifs with h
  · exact (min_eq_right h.le).symm
  · exact (min_eq_left (not_lt.mp h)).symm

theorem sdf_eq (p : Vec3) :
    sdf p = min (length p - 0.4) (length (p - smallCentre) - 0.2) := by
  simp only [sdf, sphere, stdMin_eq_min, smallCentre]
  norm_num

/-- Claim C1.  At every point `p` the scene function is the minimum of the two sphere
distances, `sdf p = min (length p - 0.4) (length (p - (0.5,0,0)) - 0.2)`, hence it is at
most the specification's `sphereSDF` of each of the two spheres. -/
theorem sdf_is_min_of_spheres (p : Vec3) :
    sdf p = min (length p - 0.4) (length (p - ⟨0.5, 0, 0⟩) - 0.2) ∧
    sdf p = min (sphereSDF p 0 0.4) (sphereSDF p ⟨0.5, 0, 0⟩ 0.2) ∧
    sdf p ≤ sphereSDF p 0 0.4 ∧
    sdf p ≤ sphereSDF p ⟨0.5, 0, 0⟩ 0.2 := by
  have h : sdf p = min (length p - 0.4) (length (p - ⟨0.5, 0, 0⟩) - 0.2) := by
    simp only [sdf, sphere, stdMin_eq_min]
    norm_num
  have h0 : sphereSDF p 0 0.4 = length p - 0.4 := by
    simp only [sphereSDF, Vec3.sub_zero_eq]
  have h1 : sphereSDF p ⟨0.5, 0, 0⟩ 0.2 = length (p - ⟨0.5, 0, 0⟩) - 0.2 := rfl
  refine ⟨h, ?_, ?_, ?_⟩
  · rw [h, h0, h1]
  · rw [h, h0]
    exact min_le_left _ _
  · rw [h, h1]
    exact min_le_right _ _

/-- On the segment from `c` to a point `p` at distance at least `r` from `c` there is a
point of the sphere of centre `c` and radius `r`, at distance `length (p - c) - r` of `p`. -/
theorem exists_on_sphere_nearest (p c : Vec3) (r : ℝ) (hr : 0 < r) (h : r ≤ length (p - c)) :
    ∃ q, OnSphere q c r ∧ length (p - q) = length (p - c) - r := by
  have hL : 0 < length (p - c) := lt_of_lt_of_le hr h
  refine ⟨c + (r / length (p - c)) • (p - c), ?_, ?_⟩
  · have hq : c + (r / length (p - c)) • (p - c) - c = (r / length (p - c)) • (p - c) := by
      ext <;> simp
    rw [OnSphere, hq, Vec3.length_smul, abs_of_nonneg (div_nonneg hr.le hL.le)]
    field_simp
  · have hq : p - (c + (r / length (p - c)) • (p - c)) = (1 - r / length (p - c)) • (p - c) := by
      ext <;> simp <;> ring
    have h1 : 0 ≤ 1 - r / length (p - c) := by
      rw [sub_nonneg, div_le_one hL]
      exact h
    rw [hq, Vec3.length_smul, abs_of_nonneg h1]
    field_simp

/-- No point of the sphere of centre `c` and radius `r` is nearer to `p` than
`length (p - c) - r`. -/
theorem sphereSDF_le_dist_of_onSphere (p q c : Vec3) (r : ℝ) (hq : OnSphere q c r) :
    length (p - c) - r ≤ length (p - q) := by
  have h := Vec3.length_sub_le p q c
  rw [OnSphere] at hq
  linarith

theorem sdf_origin : sdf ⟨0, 0, 0⟩ = -0.4 := by
  have h0 : length (⟨0, 0, 0⟩ : Vec3) = 0 := by simp [length, dot]
  have h1 : length ((⟨0, 0, 0⟩ : Vec3) - smallCentre) = 0.5 := by
    have : dot ((⟨0, 0, 0⟩ : Vec3) - smallCentre) ((⟨0, 0, 0⟩ : Vec3) - smallCentre)
        = 0.5 ^ 2 := by
      simp [dot, smallCentre]
      norm_num
    rw [length, this, Real.sqrt_sq (by norm_num)]
  rw [sdf_eq, h0, h1]
  norm_num

/-- Claim C6.  The minimum is a union: `sdf p` is negative exactly when `p` is strictly
inside one of the two spheres; when `p` is inside neither, `sdf p` is non-negative and is
the least distance from `p` to a point of the two sphere surfaces; `sdf (0,0,0) = -0.4`
and `sdf (10,10,10) > 0`. -/
theorem sdf_boolean_union (p : Vec3) :
    (sdf p < 0 ↔ StrictlyInside p 0 0.4 ∨ StrictlyInside p smallCentre 0.2) ∧
    (¬ StrictlyInside p 0 0.4 ∧ ¬ StrictlyInside p smallCentre 0.2 →
      0 ≤ sdf p ∧ IsLeast {d | ∃ q, OnSceneSurface q ∧ d = length (p - q)} (sdf p)) ∧
    sdf ⟨0, 0, 0⟩ = -0.4 ∧ 0 < sdf ⟨10, 10, 10⟩ := by
  have hs := sdf_eq p
  refine ⟨?_, ?_, sdf_origin, ?_⟩
  · rw [hs, min_lt_iff, StrictlyInside, StrictlyInside, Vec3.sub_zero_eq]
    constructor <;> (intro h; rcases h with h | h <;> [left; right] <;> linarith)
  · rintro ⟨h0, h1⟩
    rw [StrictlyInside, not_lt] at h0 h1
    rw [Vec3.sub_zero_eq] at h0
    refine ⟨?_, ?_, ?_⟩
    · rw [hs]
      exact le_min (by linarith) (by linarith)
    · rcases le_total (length p - 0.4) (length (p - smallCentre) - 0.2) with hle | hle
      · obtain ⟨q, hq, hd⟩ := exists_on_sphere_nearest p 0 0.4 (by norm_num)
          (by rw [Vec3.sub_zero_eq]; exact h0)
        refine ⟨q, Or.inl hq, ?_⟩
        rw [hd, hs, min_eq_left hle, Vec3.sub_zero_eq]
      · obtain ⟨q, hq, hd⟩ := exists_on_sphere_nearest p smallCentre 0.2 (by norm_num) h1
        refine ⟨q, Or.inr hq, ?_⟩
        rw [hd, hs, min_eq_right hle]
    · rintro d ⟨q, hq, rfl⟩
      rcases hq with hq | hq
      · have := sphereSDF_le_dist_of_onSphere p q 0 0.4 hq
        rw [Vec3.sub_zero_eq] at this
        rw [hs]
        exact le_trans (min_le_left _ _) this
      · have := sphereSDF_le_dist_of_onSphere p q smallCentre 0.2 hq
        rw [hs]
        exact le_trans (min_le_right _ _) this
  · rw [sdf_eq, lt_min_iff]
    have h0 : (1 : ℝ) ≤ length ⟨10, 10, 10⟩ := by
      rw [length, Real.one_le_sqrt]
      norm_num [dot]
    have h1 : (1 : ℝ) ≤ length ((⟨10, 10, 10⟩ : Vec3) - smallCentre) := by
      rw [length, Real.one_le_sqrt]
      norm_num [dot, smallCentre]
    constructor <;> linarith

theorem sub_sub_sub_cancel_right_eq (p q c : Vec3) : (p - c) - (q - c) = p - q := by
  ext <;> simp

/-- The scene function changes by at most the distance travelled. -/
theorem sdf_lipschitz_one (p q : Vec3) : |sdf p - sdf q| ≤ length (p - q) := by
  rw [sdf_eq, sdf_eq]
  refine le_trans (abs_min_sub_min_le_max _ _ _ _) (max_le ?_ ?_)
  · have h := Vec3.abs_length_sub_length_le p q
    have e : length p - 0.4 - (length q - 0.4) = length p - length q := by ring
    rw [e]
    exact h
  · have h := Vec3.abs_length_sub_length_le (p - smallCentre) (q - smallCentre)
    rw [sub_sub_sub_cancel_right_eq] at h
    have e : length (p - smallCentre) - 0.2 - (length (q - smallCentre) - 0.2)
        = length (p - smallCentre) - length (q - smallCentre) := by ring
    rw [e]
    exact h

theorem length_x_axis (a : ℝ) : length ⟨a, 0, 0⟩ = |a| := by
  have h : dot (⟨a, 0, 0⟩ : Vec3) ⟨a, 0, 0⟩ = a ^ 2 := by
    simp only [dot]
    ring
  rw [length, h, Real.sqrt_sq_eq_abs]

theorem sdf_x_axis (a : ℝ) : sdf ⟨a, 0, 0⟩ = min (|a| - 0.4) (|a - 0.5| - 0.2) := by
  have h : (⟨a, 0, 0⟩ : Vec3) - smallCentre = ⟨a - 0.5, 0, 0⟩ := by
    ext <;> simp [smallCentre]
  rw [sdf_eq, h, length_x_axis, length_x_axis]

/-- Claim C5 fails as stated: the point `(0.4, 0, 0)` lies on the surface of the larger
sphere and inside the smaller one, where `sdf` is `-0.1`, not within `0.001` of zero. -/
theorem sdf_on_surface_counterexample :
    length (⟨0.4, 0, 0⟩ : Vec3) = 0.4 ∧ sdf ⟨0.4, 0, 0⟩ = -0.1 ∧
    ¬ |sdf ⟨0.4, 0, 0⟩| < 0.001 := by
  have hp : length (⟨0.4, 0, 0⟩ : Vec3) = 0.4 := by
    rw [length_x_axis, abs_of_pos (by norm_num : (0 : ℝ) < 0.4)]
  have hs : sdf ⟨0.4, 0, 0⟩ = -0.1 := by
    rw [sdf_x_axis, abs_of_pos (by norm_num : (0 : ℝ) < 0.4),
      abs_of_neg (by norm_num : (0.4 : ℝ) - 0.5 < 0)]
    norm_num
  refine ⟨hp, hs, ?_⟩
  rw [hs, abs_of_neg (by norm_num : (-0.1 : ℝ) < 0)]
  norm_num

/-- Claim C5, amended.  At every point `p` on the surface of either sphere that is not
strictly inside the other sphere, `sdf p` is zero, so `|sdf p| < 0.001`. -/
theorem sdf_on_surface (p : Vec3)
    (hsurf : length p = 0.4 ∨ length (p - ⟨0.5, 0, 0⟩) = 0.2)
    (hbig : ¬ length p < 0.4) (hsmall : ¬ length (p - ⟨0.5, 0, 0⟩) < 0.2) :
    sdf p = 0 ∧ |sdf p| < 0.001 := by
  have hc : (⟨0.5, 0, 0⟩ : Vec3) = smallCentre := by
    ext <;> simp [smallCentre]
  rw [hc] at hsurf hsmall
  rw [not_lt] at hbig hsmall
  have h0 : sdf p = 0 := by
    rw [sdf_eq]
    rcases hsurf with h | h
    · rw [h, min_eq_left (by linarith)]
      norm_num
    · rw [h, min_eq_right (by linarith)]
      norm_num
  refine ⟨h0, ?_⟩
  rw [h0]
  norm_num

theorem sdf_on_surface_witness :
    sdf ⟨-0.4, 0, 0⟩ = 0 ∧ |sdf ⟨-0.4, 0, 0⟩| < 0.001 :=
  sdf_on_surface ⟨-0.4, 0, 0⟩
    (Or.inl (by rw [length_x_axis, abs_of_neg (by norm_num : (-0.4 : ℝ) < 0)]; norm_num))
    (by rw [length_x_axis, abs_of_neg (by norm_num : (-0.4 : ℝ) < 0)]; norm_num)
    (by
      have h : (⟨-0.4, 0, 0⟩ : Vec3) - ⟨0.5, 0, 0⟩ = ⟨-0.9, 0, 0⟩ := by
        ext <;> norm_num
      rw [h, length_x_axis, abs_of_neg (by norm_num : (-0.9 : ℝ) < 0)]
      norm_num)

/-! ## The marching loop -/

theorem SphereTraceLoop_unfold (ray : Ray) (t : ℝ) :
    SphereTraceLoop ray t =
      if t < constants.tMax then
        if |sdf (ray.org + t • ray.dir)| < eps then some t
        else SphereTraceLoop ray (t + |sdf (ray.org + t • ray.dir)| / constants.Lambda)
      else none := by
  rw [SphereTraceLoop]

theorem SphereTraceLoop_hit (ray : Ray) (t : ℝ) (ht : t < constants.tMax)
    (hd : |sdf (ray.org + t • ray.dir)| < eps) : SphereTraceLoop ray t = some t := by
  rw [SphereTraceLoop_unfold, if_pos ht, if_pos hd]

theorem SphereTraceLoop_step (ray : Ray) (t : ℝ) (ht : t < constants.tMax)
    (hd : ¬ |sdf (ray.org + t • ray.dir)| < eps) :
    SphereTraceLoop ray t = SphereTraceLoop ray (SphereTraceStep ray t) := by
  rw [SphereTraceLoop_unfold, if_pos ht, if_neg hd]
  rfl

theorem SphereTraceLoop_exit (ray : Ray) (t : ℝ) (ht : ¬ t < constants.tMax) :
    SphereTraceLoop ray t = none := by
  rw [SphereTraceLoop_unfold, if_neg ht]

theorem le_SphereTraceStep (ray : Ray) (t : ℝ) : t ≤ SphereTraceStep ray t := by
  have h := abs_nonneg (sdf (ray.org + t • ray.dir))
  simp only [SphereTraceStep, constants.Lambda]
  linarith

/-- Induction along the executions of the loop body. -/
theorem SphereTraceLoop_induction (ray : Ray) {motive : ℝ → Prop}
    (hit : ∀ t, t < constants.tMax → |sdf (ray.org + t • ray.dir)| < eps → motive t)
    (step : ∀ t, t < constants.tMax → ¬ |sdf (ray.org + t • ray.dir)| < eps →
      motive (SphereTraceStep ray t) → motive t)
    (exit : ∀ t, ¬ t < constants.tMax → motive t) (t : ℝ) : motive t :=
  SphereTraceLoop.induct ray motive (fun x hx hd => hit x hx hd)
    (fun x hx hd ih => step x hx hd ih) exit t

/-- A value returned from inside the loop entered at `t0` lies in `[t0, tMax)` and is a
point where the scene function is below the hit threshold. -/
theorem SphereTraceLoop_some (ray : Ray) (t0 t : ℝ) (h : SphereTraceLoop ray t0 = some t) :
    t0 ≤ t ∧ t < constants.tMax ∧ |sdf (ray.org + t • ray.dir)| < eps := by
  induction t0 using SphereTraceLoop_induction ray with
  | hit x hx hd =>
    rw [SphereTraceLoop_hit ray x hx hd] at h
    cases h
    exact ⟨le_refl _, hx, hd⟩
  | step x hx hd ih =>
    rw [SphereTraceLoop_step ray x hx hd] at h
    obtain ⟨h1, h2, h3⟩ := ih h
    exact ⟨le_trans (le_SphereTraceStep ray x) h1, h2, h3⟩
  | exit x hx =>
    rw [SphereTraceLoop_exit ray x hx] at h
    cases h

theorem tMax_lt_FLT_MAX : constants.tMax < FLT_MAX := by
  norm_num [constants.tMax, FLT_MAX]

/-- Claim C3.  For every ray `SphereTrace` returns either the miss sentinel, the largest
finite `float`, which is greater than `tMax = 10`, or a value `t` with
`tMin ≤ t < tMax`; so the test `distance < tMax` of the caller holds exactly when the loop
returned from its hit branch. -/
theorem SphereTrace_range (ray : Ray) :
    (SphereTrace ray = FLT_MAX ∨
      (constants.tMin ≤ SphereTrace ray ∧ SphereTrace ray < constants.tMax)) ∧
    constants.tMax < FLT_MAX ∧ constants.tMax = 10 ∧
    (SphereTrace ray < constants.tMax ↔
      ∃ t, SphereTraceLoop ray constants.tMin = some t ∧ SphereTrace ray = t) := by
  refine ⟨?_, tMax_lt_FLT_MAX, by norm_num [constants.tMax], ?_⟩
  · unfold SphereTrace
    cases h : SphereTraceLoop ray constants.tMin with
    | none => exact Or.inl rfl
    | some t =>
      obtain ⟨h1, h2, _⟩ := SphereTraceLoop_some ray _ t h
      exact Or.inr ⟨h1, h2⟩
  · unfold SphereTrace
    cases h : SphereTraceLoop ray constants.tMin with
    | none =>
      constructor
      · intro hlt
        exact absurd hlt (not_lt.mpr tMax_lt_FLT_MAX.le)
      · rintro ⟨t, ht, _⟩
        cases ht
    | some t =>
      obtain ⟨_, h2, _⟩ := SphereTraceLoop_some ray _ t h
      exact ⟨fun _ => ⟨t, rfl, rfl⟩, fun _ => h2⟩

theorem ray_point_sub (o d : Vec3) (s t : ℝ) : (o + s • d) - (o + t • d) = (s - t) • d := by
  ext <;> simp <;> ring

/-- Along a ray with unit direction the scene function changes by at most the change of
the ray parameter. -/
theorem sdf_along_ray (ray : Ray) (hdir : length ray.dir = 1) (s t : ℝ) :
    |sdf (ray.org + s • ray.dir) - sdf (ray.org + t • ray.dir)| ≤ |s - t| := by
  have h := sdf_lipschitz_one (ray.org + s • ray.dir) (ray.org + t • ray.dir)
  rw [ray_point_sub, Vec3.length_smul, hdir, mul_one] at h
  exact h

/-- The update of the loop variable never passes a zero of the scene function on the ray. -/
theorem SphereTraceStep_le_zero (ray : Ray) (hdir : length ray.dir = 1) (t ts : ℝ)
    (hle : t ≤ ts) (h0 : sdf (ray.org + ts • ray.dir) = 0) : SphereTraceStep ray t ≤ ts := by
  have h := sdf_along_ray ray hdir t ts
  rw [h0, sub_zero, abs_of_nonpos (sub_nonpos.mpr hle)] at h
  simp only [SphereTraceStep, constants.Lambda]
  linarith

theorem SphereTraceLoop_no_overshoot (ray : Ray) (hdir : length ray.dir = 1) (ts : ℝ)
    (hts : ts < constants.tMax) (h0 : sdf (ray.org + ts • ray.dir) = 0) (t0 : ℝ)
    (hle : t0 ≤ ts) : ∃ t, SphereTraceLoop ray t0 = some t ∧ t ≤ ts := by
  induction t0 using SphereTraceLoop_induction ray with
  | hit x hx hd => exact ⟨x, SphereTraceLoop_hit ray x hx hd, hle⟩
  | step x hx hd ih =>
    rw [SphereTraceLoop_step ray x hx hd]
    exact ih (SphereTraceStep_le_zero ray hdir x ts hle h0)
  | exit x hx => exact absurd (lt_of_le_of_lt hle hts) hx

theorem SphereTrace_of_some (ray : Ray) (t : ℝ)
    (h : SphereTraceLoop ray constants.tMin = some t) : SphereTrace ray = t := by
  unfold SphereTrace
  rw [h]

theorem x_axis_point (a t : ℝ) : (⟨a, 0, 0⟩ : Vec3) + t • ⟨1, 0, 0⟩ = ⟨a + t, 0, 0⟩ := by
  ext <;> simp

theorem sdf_neg_two : sdf ⟨-2, 0, 0⟩ = 1.6 := by
  rw [sdf_x_axis, abs_of_neg (by norm_num : (-2 : ℝ) < 0),
    abs_of_neg (by norm_num : (-2 : ℝ) - 0.5 < 0)]
  norm_num

theorem sdf_neg_two_fifths : sdf ⟨-0.4, 0, 0⟩ = 0 := by
  rw [sdf_x_axis, abs_of_neg (by norm_num : (-0.4 : ℝ) < 0),
    abs_of_neg (by norm_num : (-0.4 : ℝ) - 0.5 < 0)]
  norm_num

/-- The ray from `(-2, 0, 0)` along the x axis: the loop steps once, from `0` to `1.6`,
and returns `1.6`, on the surface of the larger sphere. -/
theorem SphereTraceLoop_x_axis :
    SphereTraceLoop ⟨⟨-2, 0, 0⟩, ⟨1, 0, 0⟩⟩ constants.tMin = some 1.6 := by
  have h0 : constants.tMin = 0 := by norm_num [constants.tMin]
  have hp0 : (⟨-2, 0, 0⟩ : Vec3) + (0 : ℝ) • ⟨1, 0, 0⟩ = ⟨-2, 0, 0⟩ := by
    rw [x_axis_point]
    norm_num
  have hp1 : (⟨-2, 0, 0⟩ : Vec3) + (1.6 : ℝ) • ⟨1, 0, 0⟩ = ⟨-0.4, 0, 0⟩ := by
    rw [x_axis_point]
    norm_num
  have hstep : SphereTraceStep ⟨⟨-2, 0, 0⟩, ⟨1, 0, 0⟩⟩ 0 = 1.6 := by
    simp only [SphereTraceStep, hp0, sdf_neg_two, constants.Lambda]
    rw [abs_of_pos (by norm_num : (0 : ℝ) < 1.6)]
    norm_num
  rw [h0, SphereTraceLoop_step _ 0 (by norm_num [constants.tMax]), hstep]
  · apply SphereTraceLoop_hit
    · norm_num [constants.tMax]
    · simp only [hp1, sdf_neg_two_fifths]
      norm_num [eps]
  · simp only [hp0, sdf_neg_two]
    rw [abs_of_pos (by norm_num : (0 : ℝ) < 1.6)]
    norm_num [eps]

theorem add_zero_smul (o d : Vec3) : o + (0 : ℝ) • d = o := by
  ext <;> simp

theorem length_normalize (v : Vec3) (hv : v ≠ 0) : length (Vec3.normalize v) = 1 := by
  have hL := Vec3.length_pos hv
  have h : Vec3.normalize v = (1 / length v) • v := by
    unfold Vec3.normalize
    ext <;> simp <;> ring
  rw [h, Vec3.length_smul, abs_of_pos (one_div_pos.mpr hL)]
  field_simp

theorem ne_zero_of_length_pos {v : Vec3} (h : 0 < length v) : v ≠ 0 := by
  rintro rfl
  rw [Vec3.length_eq_zero_iff.mpr rfl] at h
  exact lt_irrefl _ h

theorem normalize_eq_smul (v : Vec3) : Vec3.normalize v = (1 / length v) • v := by
  unfold Vec3.normalize
  ext <;> simp <;> ring

theorem dot_smul_right (a b : Vec3) (s : ℝ) : dot a (s • b) = s * dot a b := by
  simp only [dot, Vec3.smul_x, Vec3.smul_y, Vec3.smul_z]
  ring

theorem dot_sub_right (a b c : Vec3) : dot a (b - c) = dot a b - dot a c := by
  simp only [dot, Vec3.sub_x, Vec3.sub_y, Vec3.sub_z]
  ring

theorem dot_comm (a b : Vec3) : dot a b = dot b a := by
  simp only [dot]
  ring

theorem dot_self_of_length_one {v : Vec3} (h : length v = 1) : dot v v = 1 := by
  rw [← Vec3.length_mul_self, h, mul_one]

theorem length_one_of_dot_self {v : Vec3} (h : dot v v = 1) : length v = 1 := by
  rw [length, h, Real.sqrt_one]

/-- Lagrange identity. -/
theorem dot_cross_self (a b : Vec3) :
    dot (cross a b) (cross a b) = dot a a * dot b b - dot a b ^ 2 := by
  simp only [dot, cross]
  ring

theorem dot_cross_left (a b : Vec3) : dot a (cross a b) = 0 := by
  simp only [dot, cross]
  ring

theorem dot_cross_right (a b : Vec3) : dot b (cross a b) = 0 := by
  simp only [dot, cross]
  ring

theorem sub_ne_zero_of_ne {a b : Vec3} (h : a ≠ b) : a - b ≠ 0 := by
  intro h0
  apply h
  have hx := congrArg Vec3.x h0
  have hy := congrArg Vec3.y h0
  have hz := congrArg Vec3.z h0
  simp only [Vec3.sub_x, Vec3.sub_y, Vec3.sub_z, Vec3.zero_x, Vec3.zero_y, Vec3.zero_z] at hx hy hz
  ext <;> linarith

/-- The Gram-Schmidt residue of `up` is not zero when `up` is not parallel to `d`. -/
theorem gram_schmidt_ne_zero (up d : Vec3) (hpar : ¬ Parallel up d) :
    up - dot up (Vec3.normalize d) • Vec3.normalize d ≠ 0 := by
  intro h0
  apply hpar
  refine ⟨dot up (Vec3.normalize d) * (1 / length d), ?_⟩
  have hx := congrArg Vec3.x h0
  have hy := congrArg Vec3.y h0
  have hz := congrArg Vec3.z h0
  have hnx := congrArg Vec3.x (normalize_eq_smul d)
  have hny := congrArg Vec3.y (normalize_eq_smul d)
  have hnz := congrArg Vec3.z (normalize_eq_smul d)
  simp only [Vec3.sub_x, Vec3.sub_y, Vec3.sub_z, Vec3.zero_x, Vec3.zero_y, Vec3.zero_z,
    Vec3.smul_x, Vec3.smul_y, Vec3.smul_z] at hx hy hz hnx hny hnz
  ext
  · simp only [Vec3.smul_x]
    rw [hnx] at hx
    linear_combination hx
  · simp only [Vec3.smul_y]
    rw [hny] at hy
    linear_combination hy
  · simp only [Vec3.smul_z]
    rw [hnz] at hz
    linear_combination hz

/-- The frame computed by the body of `InitCamera` is orthonormal, and neither of the two
vectors it normalises is zero. -/
theorem InitCameraFrom_frame (eye target up : Vec3) (hne : target ≠ eye)
    (hpar : ¬ Parallel up (target - eye)) :
    target - eye ≠ 0 ∧
    up - dot up (Vec3.normalize (target - eye)) • Vec3.normalize (target - eye) ≠ 0 ∧
    Orthonormal (InitCameraFrom eye target up) := by
  have hd := sub_ne_zero_of_ne hne
  have hw := gram_schmidt_ne_zero up (target - eye) hpar
  have hf := length_normalize _ hd
  have hu := length_normalize _ hw
  have hff := dot_self_of_length_one hf
  have huu := dot_self_of_length_one hu
  have hfu : dot (Vec3.normalize (target - eye))
      (Vec3.normalize (up - dot up (Vec3.normalize (target - eye)) •
        Vec3.normalize (target - eye))) = 0 := by
    rw [normalize_eq_smul (up - _), dot_smul_right, dot_sub_right, dot_smul_right, hff,
      dot_comm up]
    ring
  refine ⟨hd, hw, hf, hu, ?_, hfu, ?_, ?_⟩
  · apply length_one_of_dot_self
    show dot (cross _ _) (cross _ _) = 1
    rw [dot_cross_self, hff, huu, hfu]
    norm_num
  · exact dot_cross_left _ _
  · exact dot_cross_right _ _

/-- Claim C8.  For every eye, target and up hint with `target ≠ eye` and the up hint not
parallel to `target - eye`, the basis computed by `InitCamera` is orthonormal: the three
vectors have length one and are pairwise orthogonal (and the two vectors it normalises are
not zero). -/
theorem InitCamera_orthonormal (eye target up : Vec3) (hne : target ≠ eye)
    (hpar : ¬ Parallel up (target - eye)) :
    (target - eye ≠ 0 ∧
      up - dot up (Vec3.normalize (target - eye)) • Vec3.normalize (target - eye) ≠ 0) ∧
    (InitCameraFrom eye target up).CamDir = Vec3.normalize (target - eye) ∧
    (InitCameraFrom eye target up).CamUp =
      Vec3.normalize (up - dot up (InitCameraFrom eye target up).CamDir
        • (InitCameraFrom eye target up).CamDir) ∧
    (InitCameraFrom eye target up).CamRight =
      cross (InitCameraFrom eye target up).CamDir (InitCameraFrom eye target up).CamUp ∧
    length (InitCameraFrom eye target up).CamDir = 1 ∧
    length (InitCameraFrom eye target up).CamUp = 1 ∧
    length (InitCameraFrom eye target up).CamRight = 1 ∧
    dot (InitCameraFrom eye target up).CamDir (InitCameraFrom eye target up).CamUp = 0 ∧
    dot (InitCameraFrom eye target up).CamDir (InitCameraFrom eye target up).CamRight = 0 ∧
    dot (InitCameraFrom eye target up).CamUp (InitCameraFrom eye target up).CamRight = 0 := by
  obtain ⟨h1, h2, h3⟩ := InitCameraFrom_frame eye target up hne hpar
  exact ⟨⟨h1, h2⟩, rfl, rfl, rfl, h3⟩

theorem configured_target_ne_eye : constants.Target ≠ constants.Eye := by
  intro h
  have hz := congrArg Vec3.z h
  norm_num [constants.Target, constants.Eye] at hz

theorem configured_up_not_parallel :
    ¬ Parallel constants.Up (constants.Target - constants.Eye) := by
  rintro ⟨k, hk⟩
  have hy := congrArg Vec3.y hk
  norm_num [constants.Up, constants.Target, constants.Eye] at hy

theorem InitCamera_orthonormal_witness :
    constants.Target ≠ constants.Eye ∧
    ¬ Parallel constants.Up (constants.Target - constants.Eye) ∧
    Orthonormal InitCamera :=
  ⟨configured_target_ne_eye, configured_up_not_parallel,
    (InitCamera_orthonormal constants.Eye constants.Target constants.Up
      configured_target_ne_eye configured_up_not_parallel).2.2.2.2⟩

theorem smul_smul_eq (a b : ℝ) (v : Vec3) : a • (b • v) = (a * b) • v := by
  ext <;> simp <;> ring

/-- Claim C10.  For an extent `N` (an image width or height, a positive number),
`ToNDC (-0.5) N = -1`, `ToNDC (N - 0.5) N = 1`, and `ToNDC` is strictly increasing in its
first argument. -/
theorem ToNDC_endpoints_monotone (N : ℝ) (hN : 0 < N) :
    ToNDC (-0.5) N = -1 ∧ ToNDC (N - 0.5) N = 1 ∧
    (∀ a b : ℝ, a < b → ToNDC a N < ToNDC b N) ∧
    (∀ a b : ℝ, a ≤ b → ToNDC a N ≤ ToNDC b N) := by
  have hmono : ∀ a b : ℝ, a < b → ToNDC a N < ToNDC b N := by
    intro a b hab
    unfold ToNDC
    have : 2.0 * (a + 0.5) / N < 2.0 * (b + 0.5) / N := by
      apply div_lt_div_of_pos_right _ hN
      linarith
    linarith
  refine ⟨?_, ?_, hmono, ?_⟩
  · unfold ToNDC
    norm_num
  · unfold ToNDC
    field_simp
    ring
  · intro a b hab
    rcases hab.lt_or_eq with h | h
    · exact (hmono a b h).le
    · rw [h]

theorem ToNDC_endpoints_monotone_witness :
    ToNDC (-0.5) 512 = -1 ∧ ToNDC (512 - 0.5) 512 = 1 ∧
    (∀ a b : ℝ, a < b → ToNDC a 512 < ToNDC b 512) ∧
    (∀ a b : ℝ, a ≤ b → ToNDC a 512 ≤ ToNDC b 512) :=
  ToNDC_endpoints_monotone 512 (by norm_num)

theorem SphereTrace_eq_getD (ray : Ray) :
    SphereTrace ray = (SphereTraceLoop ray constants.tMin).getD FLT_MAX := by
  unfold SphereTrace
  cases SphereTraceLoop ray constants.tMin <;> rfl

theorem eps_pos : 0 < eps := by
  norm_num [eps]

/-- An execution of the loop body that does not return moves the loop variable forward by
at least `eps / Lambda`. -/
theorem SphereTraceStep_progress (ray : Ray) (t : ℝ)
    (hd : ¬ |sdf (ray.org + t • ray.dir)| < eps) :
    t + eps / constants.Lambda ≤ SphereTraceStep ray t := by
  have h := not_lt.mp hd
  simp only [SphereTraceStep, constants.Lambda] at *
  linarith

/-- When `n` steps of length `eps` from `t` reach `tMax`, `n` executions of the loop body
end the loop, with the value of the loop defined by recursion. -/
theorem SphereTraceFuel_enough (ray : Ray) (n : ℕ) (t : ℝ)
    (h : constants.tMax - t ≤ n * eps) :
    SphereTraceFuel ray n t = some ((SphereTraceLoop ray t).getD FLT_MAX) := by
  induction n generalizing t with
  | zero =>
    have ht : ¬ t < constants.tMax := by
      simp only [Nat.cast_zero, zero_mul] at h
      linarith
    rw [SphereTraceFuel, if_neg ht, SphereTraceLoop_exit ray t ht]
    rfl
  | succ n ih =>
    rw [SphereTraceFuel]
    by_cases ht : t < constants.tMax
    · rw [if_pos ht]
      by_cases hd : |sdf (ray.org + t • ray.dir)| < eps
      · simp only [if_pos hd]
        rw [SphereTraceLoop_hit ray t ht hd]
        rfl
      · simp only [if_neg hd]
        rw [SphereTraceLoop_step ray t ht hd]
        have hp := SphereTraceStep_progress ray t hd
        have hl : constants.Lambda = 1 := by norm_num [constants.Lambda]
        rw [hl, div_one] at hp
        apply ih
        push_cast at h
        simp only [SphereTraceStep] at hp ⊢
        linarith
    · rw [if_neg ht, SphereTraceLoop_exit ray t ht]
      rfl

/-- Claim C16.  `SphereTrace` terminates for every ray, of any origin and direction: an
execution of the loop body that does not return has `dist ≥ ε` and increases `t` by at
least `ε / Λ`, so at most `(tMax - tMin) * Λ / ε + 1 = 10001` executions of the loop body
end the loop, with a hit or with the miss sentinel. -/
theorem SphereTrace_terminates (ray : Ray) :
    (∀ t : ℝ, ¬ |sdf (ray.org + t • ray.dir)| < eps →
      eps ≤ |sdf (ray.org + t • ray.dir)| ∧
      t + eps / constants.Lambda ≤ SphereTraceStep ray t) ∧
    (constants.tMax - constants.tMin) * constants.Lambda / eps + 1 = 10001 ∧
    SphereTraceFuel ray 10001 constants.tMin = some (SphereTrace ray) ∧
    (∀ n : ℕ, 10001 ≤ n → SphereTraceFuel ray n constants.tMin = some (SphereTrace ray)) ∧
    (SphereTrace ray = FLT_MAX ∨
      ∃ t, SphereTraceLoop ray constants.tMin = some t ∧ SphereTrace ray = t) := by
  have hfuel : ∀ n : ℕ, 10001 ≤ n →
      SphereTraceFuel ray n constants.tMin = some (SphereTrace ray) := by
    intro n hn
    rw [SphereTrace_eq_getD]
    apply SphereTraceFuel_enough
    have hn1 : (10001 : ℝ) ≤ n := by exact_mod_cast hn
    norm_num [constants.tMax, constants.tMin, eps]
    linarith
  refine ⟨fun t hd => ⟨not_lt.mp hd, SphereTraceStep_progress ray t hd⟩, ?_,
    hfuel 10001 (le_refl _), hfuel, ?_⟩
  · norm_num [constants.tMax, constants.tMin, constants.Lambda, eps]
  · unfold SphereTrace
    cases h : SphereTraceLoop ray constants.tMin with
    | none => exact Or.inl rfl
    | some t => exact Or.inr ⟨t, rfl, rfl⟩

/-- A value returned from inside the loop entered at `t0` is the first iterate of the
update, counted from `t0`, at which the scene function is below the hit threshold. -/
theorem SphereTraceLoop_some_first (ray : Ray) (t0 t : ℝ)
    (h : SphereTraceLoop ray t0 = some t) :
    ∃ k : ℕ, t = (SphereTraceStep ray)^[k] t0 ∧
      ∀ j < k, ¬ |sdf (ray.org + (SphereTraceStep ray)^[j] t0 • ray.dir)| < eps := by
  induction t0 using SphereTraceLoop_induction ray with
  | hit x hx hd =>
    rw [SphereTraceLoop_hit ray x hx hd] at h
    cases h
    exact ⟨0, rfl, fun j hj => absurd hj (Nat.not_lt_zero j)⟩
  | step x hx hd ih =>
    rw [SphereTraceLoop_step ray x hx hd] at h
    obtain ⟨k, hk, hfirst⟩ := ih h
    refine ⟨k + 1, by rw [Function.iterate_succ_apply]; exact hk, ?_⟩
    intro j hj
    cases j with
    | zero => exact hd
    | succ i =>
      rw [Function.iterate_succ_apply]
      exact hfirst i (Nat.lt_of_succ_lt_succ hj)
  | exit x hx =>
    rw [SphereTraceLoop_exit ray x hx] at h
    cases h

theorem SphereTraceLoop_of_ne_sentinel (ray : Ray) (h : SphereTrace ray ≠ FLT_MAX) :
    SphereTraceLoop ray constants.tMin = some (SphereTrace ray) := by
  unfold SphereTrace at h ⊢
  cases hl : SphereTraceLoop ray constants.tMin with
  | none =>
    rw [hl] at h
    exact absurd rfl h
  | some t => rfl

/-- Claim C17.  When `SphereTrace` returns a value `t` other than the miss sentinel,
`|sdf (org + t * dir)| < 0.001`, and `t` is the first iterate of the sequence
`t0 = tMin`, `t(k+1) = t(k) + |sdf (org + t(k) * dir)| / Λ` at which this holds. -/
theorem SphereTrace_hit_first_iterate (ray : Ray) (h : SphereTrace ray ≠ FLT_MAX) :
    |sdf (ray.org + SphereTrace ray • ray.dir)| < 0.001 ∧
    SphereTraceIterate ray 0 = constants.tMin ∧
    (∀ k, SphereTraceIterate ray (k + 1) = SphereTraceIterate ray k
      + |sdf (ray.org + SphereTraceIterate ray k • ray.dir)| / constants.Lambda) ∧
    ∃ k : ℕ, SphereTrace ray = SphereTraceIterate ray k ∧
      |sdf (ray.org + SphereTraceIterate ray k • ray.dir)| < 0.001 ∧
      ∀ j < k, ¬ |sdf (ray.org + SphereTraceIterate ray j • ray.dir)| < 0.001 := by
  have hl := SphereTraceLoop_of_ne_sentinel ray h
  obtain ⟨_, _, hhit⟩ := SphereTraceLoop_some ray _ _ hl
  obtain ⟨k, hk, hfirst⟩ := SphereTraceLoop_some_first ray _ _ hl
  have he : eps = 0.001 := rfl
  rw [he] at hhit hfirst
  refine ⟨hhit, rfl, ?_, k, hk, ?_, hfirst⟩
  · intro k
    unfold SphereTraceIterate
    rw [Function.iterate_succ_apply']
    rfl
  · have : SphereTraceIterate ray k = SphereTrace ray := hk.symm
    rw [this]
    exact hhit

theorem SphereTrace_hit_first_iterate_witness :
    |sdf ((⟨-2, 0, 0⟩ : Vec3) + SphereTrace ⟨⟨-2, 0, 0⟩, ⟨1, 0, 0⟩⟩ • (⟨1, 0, 0⟩ : Vec3))|
      < 0.001 ∧
    SphereTraceIterate ⟨⟨-2, 0, 0⟩, ⟨1, 0, 0⟩⟩ 0 = constants.tMin ∧
    (∀ k, SphereTraceIterate ⟨⟨-2, 0, 0⟩, ⟨1, 0, 0⟩⟩ (k + 1)
      = SphereTraceIterate ⟨⟨-2, 0, 0⟩, ⟨1, 0, 0⟩⟩ k
        + |sdf ((⟨-2, 0, 0⟩ : Vec3)
            + SphereTraceIterate ⟨⟨-2, 0, 0⟩, ⟨1, 0, 0⟩⟩ k • (⟨1, 0, 0⟩ : Vec3))|
          / constants.Lambda) ∧
    ∃ k : ℕ, SphereTrace ⟨⟨-2, 0, 0⟩, ⟨1, 0, 0⟩⟩ = SphereTraceIterate ⟨⟨-2, 0, 0⟩, ⟨1, 0, 0⟩⟩ k ∧
      |sdf ((⟨-2, 0, 0⟩ : Vec3)
        + SphereTraceIterate ⟨⟨-2, 0, 0⟩, ⟨1, 0, 0⟩⟩ k • (⟨1, 0, 0⟩ : Vec3))| < 0.001 ∧
      ∀ j < k, ¬ |sdf ((⟨-2, 0, 0⟩ : Vec3)
        + SphereTraceIterate ⟨⟨-2, 0, 0⟩, ⟨1, 0, 0⟩⟩ j • (⟨1, 0, 0⟩ : Vec3))| < 0.001 :=
  SphereTrace_hit_first_iterate ⟨⟨-2, 0, 0⟩, ⟨1, 0, 0⟩⟩ (by
    rw [SphereTrace_of_some _ _ SphereTraceLoop_x_axis]
    norm_num [FLT_MAX])

/-! ## Rays that miss -/

theorem length_le_length_iff (a b : Vec3) : length a ≤ length b ↔ dot a a ≤ dot b b :=
  Real.sqrt_le_sqrt_iff (Vec3.dot_self_nonneg b)

theorem length_lt_length_iff (a b : Vec3) : length a < length b ↔ dot a a < dot b b :=
  Real.sqrt_lt_sqrt_iff (Vec3.dot_self_nonneg a)

theorem length_eq_length_iff (a b : Vec3) : length a = length b ↔ dot a a = dot b b :=
  Real.sqrt_inj (Vec3.dot_self_nonneg a) (Vec3.dot_self_nonneg b)

/-- Squared distance to `c` of the point at parameter `t` of the ray from `o` along `d`. -/
theorem dot_ray_point (o d c : Vec3) (t : ℝ) :
    dot (o + t • d - c) (o + t • d - c)
      = dot (o - c) (o - c) - 2 * t * dot d (c - o) + t ^ 2 * dot d d := by
  simp only [dot, Vec3.add_x, Vec3.add_y, Vec3.add_z, Vec3.sub_x, Vec3.sub_y, Vec3.sub_z,
    Vec3.smul_x, Vec3.smul_y, Vec3.smul_z]
  ring

/-- Along a ray that points away from `c` the distance to `c` does not decrease. -/
theorem length_le_along_ray (o d c : Vec3) (t : ℝ) (ht : 0 ≤ t) (haway : dot d (c - o) ≤ 0) :
    length (o - c) ≤ length (o + t • d - c) := by
  rw [length_le_length_iff, dot_ray_point]
  have h1 : 0 ≤ t ^ 2 * dot d d := mul_nonneg (sq_nonneg t) (Vec3.dot_self_nonneg d)
  have h2 : 0 ≤ t * -dot d (c - o) := mul_nonneg ht (by linarith)
  linarith

/-- The loop entered at `t0` ends without returning when no point of the ray from `t0`
on is below the hit threshold. -/
theorem SphereTraceLoop_none (ray : Ray) (t0 : ℝ)
    (hfar : ∀ t : ℝ, t0 ≤ t → ¬ |sdf (ray.org + t • ray.dir)| < eps) :
    SphereTraceLoop ray t0 = none := by
  induction t0 using SphereTraceLoop_induction ray with
  | hit x hx hd => exact absurd hd (hfar x (le_refl _))
  | step x hx hd ih =>
    rw [SphereTraceLoop_step ray x hx hd]
    exact ih (fun t ht => hfar t (le_trans (le_SphereTraceStep ray x) ht))
  | exit x hx => exact SphereTraceLoop_exit ray x hx

theorem SphereTrace_of_none (ray : Ray) (h : SphereTraceLoop ray constants.tMin = none) :
    SphereTrace ray = FLT_MAX := by
  unfold SphereTrace
  rw [h]

/-- The loop ends without returning when the scene function is at least `eps` at every
point of the ray. -/
theorem SphereTrace_miss_of_far (ray : Ray)
    (hfar : ∀ t : ℝ, 0 ≤ t → eps ≤ sdf (ray.org + t • ray.dir)) :
    SphereTraceLoop ray constants.tMin = none ∧ SphereTrace ray = FLT_MAX := by
  have hnone : SphereTraceLoop ray constants.tMin = none := by
    apply SphereTraceLoop_none
    intro t ht
    have ht0 : 0 ≤ t := by
      simp only [constants.tMin] at ht
      linarith
    have h := hfar t ht0
    rw [abs_of_nonneg (le_trans eps_pos.le h)]
    exact not_lt.mpr h
  exact ⟨hnone, SphereTrace_of_none ray hnone⟩

/-- Claim C12.  For a ray with unit direction whose origin has `sdf org ≥ ε` and which is
aimed away from both sphere centres, `dot dir (c - org) ≤ 0` for `c = 0` and
`c = (0.5, 0, 0)`, `SphereTrace` returns the miss sentinel. -/
theorem SphereTrace_aimed_away (ray : Ray) (_hdir : length ray.dir = 1)
    (hout : eps ≤ sdf ray.org)
    (hbig : dot ray.dir (0 - ray.org) ≤ 0)
    (hsmall : dot ray.dir (smallCentre - ray.org) ≤ 0) :
    SphereTrace ray = FLT_MAX ∧ SphereTraceLoop ray constants.tMin = none := by
  have hfar : ∀ t : ℝ, 0 ≤ t → eps ≤ sdf (ray.org + t • ray.dir) := by
    intro t ht
    have h0 := length_le_along_ray ray.org ray.dir 0 t ht hbig
    have h1 := length_le_along_ray ray.org ray.dir smallCentre t ht hsmall
    rw [Vec3.sub_zero_eq, Vec3.sub_zero_eq] at h0
    rw [sdf_eq] at hout ⊢
    have hb := le_min_iff.mp hout
    exact le_min (by linarith [hb.1]) (by linarith [hb.2])
  exact ⟨(SphereTrace_miss_of_far ray hfar).2, (SphereTrace_miss_of_far ray hfar).1⟩

theorem SphereTrace_aimed_away_witness :
    SphereTrace ⟨⟨-2, 0, 0⟩, ⟨-1, 0, 0⟩⟩ = FLT_MAX ∧
    SphereTraceLoop ⟨⟨-2, 0, 0⟩, ⟨-1, 0, 0⟩⟩ constants.tMin = none :=
  SphereTrace_aimed_away ⟨⟨-2, 0, 0⟩, ⟨-1, 0, 0⟩⟩
    (by rw [length_x_axis, abs_neg, abs_one])
    (by
      show eps ≤ sdf ⟨-2, 0, 0⟩
      rw [sdf_neg_two]
      norm_num [eps])
    (by norm_num [dot])
    (by norm_num [dot, smallCentre])

/-! ## The pixel buffer -/

theorem wrapInt32_of_range (n : ℤ) (h0 : -2 ^ 31 ≤ n) (h1 : n < 2 ^ 31) : wrapInt32 n = n := by
  unfold wrapInt32
  omega

/-- For a pixel of the image no operation of the index computation leaves the 32-bit
range: the index is the exact value of `x + (Height - 1 - y) * Width`. -/
theorem pixelIndex_exact (x y : ℤ) (hx0 : 0 ≤ x) (hxW : x < constants.Width) (hy0 : 0 ≤ y)
    (hyH : y < constants.Height) :
    pixelIndex x y = x + (constants.Height - 1 - y) * constants.Width := by
  unfold constants.Width at hxW
  unfold constants.Height at hyH
  unfold pixelIndex wrapInt32 constants.Height constants.Width
  omega

theorem imageSize_eq : imageSize = constants.Width * constants.Height ∧ imageSize = 262144 := by
  unfold imageSize wrapInt32 constants.Height constants.Width
  omega

theorem pixelIndex_range (x y : ℤ) (hx0 : 0 ≤ x) (hxW : x < constants.Width) (hy0 : 0 ≤ y)
    (hyH : y < constants.Height) :
    0 ≤ pixelIndex x y ∧ pixelIndex x y < constants.Width * constants.Height ∧
    pixelIndex x y / constants.Width = constants.Height - 1 - y ∧
    pixelIndex x y % constants.Width = x := by
  rw [pixelIndex_exact x y hx0 hxW hy0 hyH]
  unfold constants.Width at hxW ⊢
  unfold constants.Height at hyH ⊢
  omega

theorem pixelIndex_injective (x y u v : ℤ) (hx0 : 0 ≤ x) (hxW : x < constants.Width)
    (hy0 : 0 ≤ y) (hyH : y < constants.Height) (hu0 : 0 ≤ u) (huW : u < constants.Width)
    (hv0 : 0 ≤ v) (hvH : v < constants.Height) (h : pixelIndex u v = pixelIndex x y) :
    u = x ∧ v = y := by
  rw [pixelIndex_exact x y hx0 hxW hy0 hyH, pixelIndex_exact u v hu0 huW hv0 hvH] at h
  unfold constants.Width at hxW huW h
  unfold constants.Height at hyH hvH h
  omega

theorem pixelIndex_surjective (i : ℤ) (hi0 : 0 ≤ i) (hi : i < constants.Width * constants.Height) :
    ∃ x y : ℤ, 0 ≤ x ∧ x < constants.Width ∧ 0 ≤ y ∧ y < constants.Height ∧
      pixelIndex x y = i := by
  unfold constants.Width constants.Height at hi
  have hx0 : 0 ≤ i % 512 := by omega
  have hxW : i % 512 < constants.Width := by
    unfold constants.Width
    omega
  have hy0 : 0 ≤ 511 - i / 512 := by omega
  have hyH : 511 - i / 512 < constants.Height := by
    unfold constants.Height
    omega
  refine ⟨i % 512, 511 - i / 512, hx0, hxW, hy0, hyH, ?_⟩
  rw [pixelIndex_exact _ _ hx0 hxW hy0 hyH]
  unfold constants.Width constants.Height
  omega

theorem mainWrites_indices :
    mainWrites.map Prod.fst =
      (List.range 512).flatMap fun (x : ℕ) =>
        (List.range 512).map fun (y : ℕ) => pixelIndex x y := by
  unfold mainWrites
  rw [List.map_flatMap]
  simp only [List.map_map]
  rfl

theorem mem_mainWrites_indices (i : ℤ) :
    i ∈ mainWrites.map Prod.fst ↔ ∃ x y : ℕ, x < 512 ∧ y < 512 ∧ pixelIndex x y = i := by
  rw [mainWrites_indices]
  simp only [List.mem_flatMap, List.mem_map, List.mem_range]
  constructor
  · rintro ⟨x, hx, y, hy, h⟩
    exact ⟨x, y, hx, hy, h⟩
  · rintro ⟨x, y, hx, hy, h⟩
    exact ⟨x, hx, y, hy, h⟩

theorem pixelIndex_nat_injective (x y u v : ℕ) (hx : x < 512) (hy : y < 512) (hu : u < 512)
    (hv : v < 512) (h : pixelIndex u v = pixelIndex x y) : u = x ∧ v = y := by
  have := pixelIndex_injective x y u v (by omega) (by unfold constants.Width; omega)
    (by omega) (by unfold constants.Height; omega) (by omega)
    (by unfold constants.Width; omega) (by omega) (by unfold constants.Height; omega) h
  omega

theorem mainWrites_indices_nodup : (mainWrites.map Prod.fst).Nodup := by
  rw [mainWrites_indices, List.nodup_flatMap]
  constructor
  · intro x hx
    rw [List.mem_range] at hx
    apply List.Nodup.map_on _ (List.nodup_range 512)
    intro a ha b hb hab
    rw [List.mem_range] at ha hb
    exact (pixelIndex_nat_injective x b x a hx hb hx ha hab).2
  · apply List.Nodup.pairwise_of_forall_ne (List.nodup_range 512)
    intro a ha b hb hab
    rw [List.mem_range] at ha hb
    show List.Disjoint _ _
    rw [List.disjoint_left]
    intro i hia hib
    rw [List.mem_map] at hia hib
    obtain ⟨y, hy, rfl⟩ := hia
    obtain ⟨v, hv, hvi⟩ := hib
    rw [List.mem_range] at hy hv
    exact hab (pixelIndex_nat_injective a y b v ha hy hb hv hvi).1.symm

theorem mainWrites_indices_count (i : ℤ) (hi0 : 0 ≤ i)
    (hi : i < constants.Width * constants.Height) :
    (mainWrites.map Prod.fst).count i = 1 := by
  apply List.count_eq_one_of_mem mainWrites_indices_nodup
  rw [mem_mainWrites_indices]
  obtain ⟨x, y, hx0, hxW, hy0, hyH, hxy⟩ := pixelIndex_surjective i hi0 hi
  unfold constants.Width at hxW
  unfold constants.Height at hyH
  refine ⟨x.toNat, y.toNat, by omega, by omega, ?_⟩
  rw [Int.toNat_of_nonneg hx0, Int.toNat_of_nonneg hy0]
  exact hxy

/-- Claim C15.  For every pixel `(x, y)` with `0 ≤ x < Width` and `0 ≤ y < Height` the
index `x + (Height - 1 - y) * Width` is computed without 32-bit overflow and lies in
`[0, Width * Height)`, the size of the buffer; the pixel lands in row `Height - 1 - y`,
column `x`; the map from pixels to indices is one-to-one and onto `[0, Width * Height)`;
and the writes of `main` touch every cell of the buffer exactly once. -/
theorem pixelIndex_in_bounds_bijective (x y : ℤ) (hx0 : 0 ≤ x) (hxW : x < constants.Width)
    (hy0 : 0 ≤ y) (hyH : y < constants.Height) :
    pixelIndex x y = x + (constants.Height - 1 - y) * constants.Width ∧
    0 ≤ pixelIndex x y ∧ pixelIndex x y < constants.Width * constants.Height ∧
    imageSize = constants.Width * constants.Height ∧
    pixelIndex x y / constants.Width = constants.Height - 1 - y ∧
    pixelIndex x y % constants.Width = x ∧
    (∀ u v : ℤ, 0 ≤ u → u < constants.Width → 0 ≤ v → v < constants.Height →
      pixelIndex u v = pixelIndex x y → u = x ∧ v = y) ∧
    (∀ i : ℤ, 0 ≤ i → i < constants.Width * constants.Height →
      ∃ u v : ℤ, 0 ≤ u ∧ u < constants.Width ∧ 0 ≤ v ∧ v < constants.Height ∧
        pixelIndex u v = i) ∧
    (∀ i : ℤ, i ∈ mainWrites.map Prod.fst → 0 ≤ i ∧ i < constants.Width * constants.Height) ∧
    (∀ i : ℤ, 0 ≤ i → i < constants.Width * constants.Height →
      (mainWrites.map Prod.fst).count i = 1) := by
  obtain ⟨h1, h2, h3, h4⟩ := pixelIndex_range x y hx0 hxW hy0 hyH
  refine ⟨pixelIndex_exact x y hx0 hxW hy0 hyH, h1, h2, imageSize_eq.1, h3, h4, ?_,
    pixelIndex_surjective, ?_, mainWrites_indices_count⟩
  · intro u v hu0 huW hv0 hvH h
    exact pixelIndex_injective x y u v hx0 hxW hy0 hyH hu0 huW hv0 hvH h
  · intro i hi
    rw [mem_mainWrites_indices] at hi
    obtain ⟨u, v, hu, hv, rfl⟩ := hi
    have := pixelIndex_range u v (by omega) (by unfold constants.Width; omega) (by omega)
      (by unfold constants.Height; omega)
    exact ⟨this.1, this.2.1⟩

theorem pixelIndex_in_bounds_bijective_witness :
    pixelIndex 0 0 = 0 + (constants.Height - 1 - 0) * constants.Width ∧
    0 ≤ pixelIndex 0 0 ∧ pixelIndex 0 0 < constants.Width * constants.Height ∧
    imageSize = constants.Width * constants.Height ∧
    pixelIndex 0 0 / constants.Width = constants.Height - 1 - 0 ∧
    pixelIndex 0 0 % constants.Width = 0 ∧
    (∀ u v : ℤ, 0 ≤ u → u < constants.Width → 0 ≤ v → v < constants.Height →
      pixelIndex u v = pixelIndex 0 0 → u = 0 ∧ v = 0) ∧
    (∀ i : ℤ, 0 ≤ i → i < constants.Width * constants.Height →
      ∃ u v : ℤ, 0 ≤ u ∧ u < constants.Width ∧ 0 ≤ v ∧ v < constants.Height ∧
        pixelIndex u v = i) ∧
    (∀ i : ℤ, i ∈ mainWrites.map Prod.fst → 0 ≤ i ∧ i < constants.Width * constants.Height) ∧
    (∀ i : ℤ, 0 ≤ i → i < constants.Width * constants.Height →
      (mainWrites.map Prod.fst).count i = 1) :=
  pixelIndex_in_bounds_bijective 0 0 (by decide) (by decide) (by decide) (by decide)

/-! ## The stored colour -/

theorem clamp_eq (x lo hi : ℝ) : clamp x lo hi = min (max x lo) hi := by
  unfold clamp glmMin glmMax
  split_ifs with h1 h2 h2
  · rw [max_eq_right h1.le, min_eq_right h2.le]
  · rw [max_eq_right h1.le, min_eq_left (not_lt.mp h2)]
  · rw [max_eq_left (not_lt.mp h1), min_eq_right h2.le]
  · rw [max_eq_left (not_lt.mp h1), min_eq_left (not_lt.mp h2)]

theorem pixelColor_miss (x y : ℤ) (h : ¬ SphereTrace (pixelRay x y) < constants.tMax) :
    pixelColor x y = constants.BackgroundColor := by
  unfold pixelColor
  simp only [if_neg h]

/-- One axis of the finite difference.  Let `u`, `v` be the distances of a point to two
centres, `ui`, `vi` those of the point shifted along an axis, with
`ui ^ 2 = u ^ 2 + k` and `vi ^ 2 = v ^ 2 + l`.  When the first sphere is the nearer at the
point and the minimum is unchanged by the shift, `k ≥ 0`, and either `k = 0` or the second
sphere gives the minimum at the shifted point and `l ≤ 0`. -/
theorem axis_difference_zero (u v ui vi r s k l : ℝ) (hu : 0 ≤ u) (hv : 0 ≤ v)
    (hui : 0 ≤ ui) (hvi : 0 ≤ vi) (hk : ui ^ 2 = u ^ 2 + k) (hl : vi ^ 2 = v ^ 2 + l)
    (hnear : u - r ≤ v - s) (hmin : min (ui - r) (vi - s) = u - r) :
    0 ≤ k ∧ (k = 0 ∨ (l ≤ 0 ∧ vi - s = u - r)) := by
  have h1 : u - r ≤ ui - r := hmin ▸ min_le_left _ _
  have h2 : u - r ≤ vi - s := hmin ▸ min_le_right _ _
  have huu : u ≤ ui := by linarith
  have hk0 : 0 ≤ k := by nlinarith
  refine ⟨hk0, ?_⟩
  rcases le_total (ui - r) (vi - s) with hle | hle
  · left
    rw [min_eq_left hle] at hmin
    have : ui = u := by linarith
    rw [this] at hk
    linarith
  · right
    rw [min_eq_right hle] at hmin
    have hvv : vi ≤ v := by linarith
    exact ⟨by nlinarith, hmin⟩

/-- No point within `0.001` of the surface has the scene function unchanged by all three
shifts of `0.001` along the axes; stated on the coordinates and the six distances. -/
theorem no_flat_point (px py pz a b ax ay az bx b2 bz : ℝ)
    (ha0 : 0 ≤ a) (hb0 : 0 ≤ b) (hax0 : 0 ≤ ax) (hay0 : 0 ≤ ay) (haz0 : 0 ≤ az)
    (hbx0 : 0 ≤ bx) (hby0 : 0 ≤ b2) (hbz0 : 0 ≤ bz)
    (ha : a ^ 2 = px ^ 2 + py ^ 2 + pz ^ 2)
    (hb : b ^ 2 = (px - 0.5) ^ 2 + py ^ 2 + pz ^ 2)
    (hax : ax ^ 2 = a ^ 2 + (2 * 0.001 * px + 0.001 ^ 2))
    (hay : ay ^ 2 = a ^ 2 + (2 * 0.001 * py + 0.001 ^ 2))
    (haz : az ^ 2 = a ^ 2 + (2 * 0.001 * pz + 0.001 ^ 2))
    (hbx : bx ^ 2 = b ^ 2 + (2 * 0.001 * (px - 0.5) + 0.001 ^ 2))
    (hby : b2 ^ 2 = b ^ 2 + (2 * 0.001 * py + 0.001 ^ 2))
    (hbz : bz ^ 2 = b ^ 2 + (2 * 0.001 * pz + 0.001 ^ 2))
    (hm : |min (a - 0.4) (b - 0.2)| < 0.001)
    (hx : min (ax - 0.4) (bx - 0.2) = min (a - 0.4) (b - 0.2))
    (hy : min (ay - 0.4) (b2 - 0.2) = min (a - 0.4) (b - 0.2))
    (hz : min (az - 0.4) (bz - 0.2) = min (a - 0.4) (b - 0.2)) : False := by
  rw [abs_lt] at hm
  rcases le_total (a - 0.4) (b - 0.2) with hnear | hnear
  · rw [min_eq_left hnear] at hm hx hy hz
    obtain ⟨hkx, hx2⟩ := axis_difference_zero a b ax bx 0.4 0.2 _ _ ha0 hb0 hax0 hbx0 hax hbx
      hnear hx
    obtain ⟨hky, hy2⟩ := axis_difference_zero a b ay b2 0.4 0.2 _ _ ha0 hb0 hay0 hby0 hay hby
      hnear hy
    obtain ⟨hkz, hz2⟩ := axis_difference_zero a b az bz 0.4 0.2 _ _ ha0 hb0 haz0 hbz0 haz hbz
      hnear hz
    have hpy : py = -0.0005 := by
      rcases hy2 with h | ⟨h, _⟩ <;> linarith only [h, hky]
    have hpz : pz = -0.0005 := by
      rcases hz2 with h | ⟨h, _⟩ <;> linarith only [h, hkz]
    have ha1 : 0.399 < a := by linarith only [hm.1]
    have ha2 : a < 0.401 := by linarith only [hm.2]
    have hasq : 0.159 < a ^ 2 := by nlinarith only [ha1]
    have hasq2 : a ^ 2 < 0.161 := by nlinarith only [ha2, ha0]
    rw [hpy, hpz] at ha
    have hpx0 : -0.0005 ≤ px := by linarith only [hkx]
    have hpx1 : 0.39 ≤ px := by
      by_contra hlt
      rw [not_le] at hlt
      nlinarith only [hlt, hpx0, ha, hasq]
    have hpx2 : px ≤ 0.41 := by
      by_contra hlt
      rw [not_le] at hlt
      nlinarith only [hlt, ha, hasq2]
    rcases hx2 with h | ⟨_, h⟩
    · linarith only [h, hpx1]
    · have hbxv : bx = a - 0.2 := by linarith only [h]
      rw [hbxv, hb, hpy, hpz] at hbx
      nlinarith only [hbx, ha1, hpx1, hpx2]
  · rw [min_eq_right hnear] at hm hx hy hz
    rw [min_comm] at hx hy hz
    obtain ⟨hkx, hx2⟩ := axis_difference_zero b a bx ax 0.2 0.4 _ _ hb0 ha0 hbx0 hax0 hbx hax
      hnear hx
    obtain ⟨hky, hy2⟩ := axis_difference_zero b a b2 ay 0.2 0.4 _ _ hb0 ha0 hby0 hay0 hby hay
      hnear hy
    obtain ⟨hkz, hz2⟩ := axis_difference_zero b a bz az 0.2 0.4 _ _ hb0 ha0 hbz0 haz0 hbz haz
      hnear hz
    have hpy : py = -0.0005 := by
      rcases hy2 with h | ⟨h, _⟩ <;> linarith only [h, hky]
    have hpz : pz = -0.0005 := by
      rcases hz2 with h | ⟨h, _⟩ <;> linarith only [h, hkz]
    have hb1 : 0.199 < b := by linarith only [hm.1]
    have hbsq : 0.039 < b ^ 2 := by nlinarith only [hb1]
    rcases hx2 with h | ⟨h, _⟩
    · have hpx : px - 0.5 = -0.0005 := by linarith only [h]
      rw [hpx, hpy, hpz] at hb
      norm_num at hb
      linarith only [hb, hbsq]
    · linarith only [h, hkx]

theorem normalVec_eq (p : Vec3) :
    normalVec p = ⟨sdf (p + ⟨0.001, 0, 0⟩) - sdf p, sdf (p + ⟨0, 0.001, 0⟩) - sdf p,
      sdf (p + ⟨0, 0, 0.001⟩) - sdf p⟩ := rfl

theorem length_sq_components (q : Vec3) : length q ^ 2 = q.x ^ 2 + q.y ^ 2 + q.z ^ 2 := by
  rw [Vec3.length_sq]
  simp only [dot]
  ring

theorem length_sq_shift (q e : Vec3) :
    length (q + e) ^ 2 = length q ^ 2
      + (2 * (e.x * q.x + e.y * q.y + e.z * q.z) + (e.x ^ 2 + e.y ^ 2 + e.z ^ 2)) := by
  rw [length_sq_components, length_sq_components]
  simp only [Vec3.add_x, Vec3.add_y, Vec3.add_z]
  ring

theorem add_sub_right_comm_eq (q e c : Vec3) : q + e - c = q - c + e := by
  ext <;> simp <;> ring

/-- The vector `normal` normalises is not zero at a point within `0.001` of the surface. -/
theorem normalVec_ne_zero (p : Vec3) (h : |sdf p| < 0.001) : normalVec p ≠ 0 := by
  intro h0
  rw [normalVec_eq] at h0
  have hx : sdf (p + ⟨0.001, 0, 0⟩) = sdf p := by
    have := congrArg Vec3.x h0
    simp only [Vec3.zero_x] at this
    linarith
  have hy : sdf (p + ⟨0, 0.001, 0⟩) = sdf p := by
    have := congrArg Vec3.y h0
    simp only [Vec3.zero_y] at this
    linarith
  have hz : sdf (p + ⟨0, 0, 0.001⟩) = sdf p := by
    have := congrArg Vec3.z h0
    simp only [Vec3.zero_z] at this
    linarith
  rw [sdf_eq] at h
  rw [sdf_eq, sdf_eq p, add_sub_right_comm_eq] at hx hy hz
  have hb : length (p - smallCentre) ^ 2 = (p.x - 0.5) ^ 2 + p.y ^ 2 + p.z ^ 2 := by
    rw [length_sq_components]
    simp only [Vec3.sub_x, Vec3.sub_y, Vec3.sub_z, smallCentre]
    ring
  have hax : length (p + ⟨0.001, 0, 0⟩) ^ 2
      = length p ^ 2 + (2 * 0.001 * p.x + 0.001 ^ 2) := by
    rw [length_sq_shift]
    ring
  have hay : length (p + ⟨0, 0.001, 0⟩) ^ 2
      = length p ^ 2 + (2 * 0.001 * p.y + 0.001 ^ 2) := by
    rw [length_sq_shift]
    ring
  have haz : length (p + ⟨0, 0, 0.001⟩) ^ 2
      = length p ^ 2 + (2 * 0.001 * p.z + 0.001 ^ 2) := by
    rw [length_sq_shift]
    ring
  have hbx : length (p - smallCentre + ⟨0.001, 0, 0⟩) ^ 2
      = length (p - smallCentre) ^ 2 + (2 * 0.001 * (p.x - 0.5) + 0.001 ^ 2) := by
    rw [length_sq_shift]
    simp only [Vec3.sub_x, Vec3.sub_y, Vec3.sub_z, smallCentre]
    ring
  have hby : length (p - smallCentre + ⟨0, 0.001, 0⟩) ^ 2
      = length (p - smallCentre) ^ 2 + (2 * 0.001 * p.y + 0.001 ^ 2) := by
    rw [length_sq_shift]
    simp only [Vec3.sub_x, Vec3.sub_y, Vec3.sub_z, smallCentre]
    ring
  have hbz : length (p - smallCentre + ⟨0, 0, 0.001⟩) ^ 2
      = length (p - smallCentre) ^ 2 + (2 * 0.001 * p.z + 0.001 ^ 2) := by
    rw [length_sq_shift]
    simp only [Vec3.sub_x, Vec3.sub_y, Vec3.sub_z, smallCentre]
    ring
  have key := no_flat_point p.x p.y p.z (length p) (length (p - smallCentre))
    (length (p + ⟨0.001, 0, 0⟩)) (length (p + ⟨0, 0.001, 0⟩)) (length (p + ⟨0, 0, 0.001⟩))
    (length (p - smallCentre + ⟨0.001, 0, 0⟩)) (length (p - smallCentre + ⟨0, 0.001, 0⟩))
    (length (p - smallCentre + ⟨0, 0, 0.001⟩))
    (Vec3.length_nonneg _) (Vec3.length_nonneg _) (Vec3.length_nonneg _)
    (Vec3.length_nonneg _) (Vec3.length_nonneg _) (Vec3.length_nonneg _)
    (Vec3.length_nonneg _) (Vec3.length_nonneg _)
  have key2 := key (length_sq_components p) hb
  have key3 := key2 hax hay haz
  have key4 := key3 hbx hby hbz
  exact key4 h hx hy hz

/-- Claim C19.  At every point `p` with `|sdf p| < 0.001` the vector of the three
one-sided differences of `sdf` with step `0.001` is not the zero vector, so `normal p`
does not normalise a zero-length vector and has length one. -/
theorem normal_total (p : Vec3) (h : |sdf p| < 0.001) :
    (⟨sdf (p + ⟨0.001, 0, 0⟩) - sdf p, sdf (p + ⟨0, 0.001, 0⟩) - sdf p,
      sdf (p + ⟨0, 0, 0.001⟩) - sdf p⟩ : Vec3) ≠ 0 ∧
    normal p = Vec3.normalize ⟨sdf (p + ⟨0.001, 0, 0⟩) - sdf p,
      sdf (p + ⟨0, 0.001, 0⟩) - sdf p, sdf (p + ⟨0, 0, 0.001⟩) - sdf p⟩ ∧
    0 < length (normalVec p) ∧
    length (normal p) = 1 := by
  have hne := normalVec_ne_zero p h
  refine ⟨?_, rfl, Vec3.length_pos hne, length_normalize _ hne⟩
  rw [← normalVec_eq]
  exact hne

theorem normal_total_witness :
    (⟨sdf ((⟨-0.4, 0, 0⟩ : Vec3) + ⟨0.001, 0, 0⟩) - sdf ⟨-0.4, 0, 0⟩,
      sdf ((⟨-0.4, 0, 0⟩ : Vec3) + ⟨0, 0.001, 0⟩) - sdf ⟨-0.4, 0, 0⟩,
      sdf ((⟨-0.4, 0, 0⟩ : Vec3) + ⟨0, 0, 0.001⟩) - sdf ⟨-0.4, 0, 0⟩⟩ : Vec3) ≠ 0 ∧
    normal ⟨-0.4, 0, 0⟩ = Vec3.normalize
      ⟨sdf ((⟨-0.4, 0, 0⟩ : Vec3) + ⟨0.001, 0, 0⟩) - sdf ⟨-0.4, 0, 0⟩,
      sdf ((⟨-0.4, 0, 0⟩ : Vec3) + ⟨0, 0.001, 0⟩) - sdf ⟨-0.4, 0, 0⟩,
      sdf ((⟨-0.4, 0, 0⟩ : Vec3) + ⟨0, 0, 0.001⟩) - sdf ⟨-0.4, 0, 0⟩⟩ ∧
    0 < length (normalVec ⟨-0.4, 0, 0⟩) ∧
    length (normal ⟨-0.4, 0, 0⟩) = 1 :=
  normal_total ⟨-0.4, 0, 0⟩ (by
    rw [sdf_neg_two_fifths, abs_zero]
    norm_num)

/-! ## Rays that hit -/

/-- The scene function along a ray with unit direction is continuous in the parameter. -/
theorem continuous_sdf_along_ray (ray : Ray) (hdir : length ray.dir = 1) :
    Continuous fun t : ℝ => sdf (ray.org + t • ray.dir) := by
  have hl : LipschitzWith (Real.toNNReal 1) fun t : ℝ => sdf (ray.org + t • ray.dir) := by
    apply LipschitzWith.of_dist_le'
    intro s t
    rw [Real.dist_eq, Real.dist_eq, one_mul]
    exact sdf_along_ray ray hdir s t
  exact hl.continuous

/-- A ray with unit direction that starts where `sdf` is non-negative and reaches, at a
parameter `b` below `tMax`, a point where `sdf` is non-positive, is reported as a hit at
a parameter not larger than `b`. -/
theorem SphereTraceLoop_hit_of_sign_change (ray : Ray) (hdir : length ray.dir = 1) (b : ℝ)
    (hb0 : 0 ≤ b) (hb : b < constants.tMax) (hstart : 0 ≤ sdf ray.org)
    (hend : sdf (ray.org + b • ray.dir) ≤ 0) :
    ∃ t, SphereTraceLoop ray constants.tMin = some t ∧ t ≤ b := by
  have hcont : ContinuousOn (fun t : ℝ => sdf (ray.org + t • ray.dir)) (Set.Icc 0 b) :=
    (continuous_sdf_along_ray ray hdir).continuousOn
  have hmem : (0 : ℝ) ∈ Set.Icc (sdf (ray.org + b • ray.dir))
      (sdf (ray.org + (0 : ℝ) • ray.dir)) := by
    rw [add_zero_smul]
    exact ⟨hend, hstart⟩
  obtain ⟨ts, hts, hzero⟩ := intermediate_value_Icc' hb0 hcont hmem
  have hmin : constants.tMin = 0 := by norm_num [constants.tMin]
  obtain ⟨t, ht, hle⟩ := SphereTraceLoop_no_overshoot ray hdir ts (lt_of_le_of_lt hts.2 hb)
    hzero constants.tMin (by rw [hmin]; exact hts.1)
  exact ⟨t, ht, le_trans hle hts.2⟩

/-! ## The configured camera and its pixel rays -/

theorem length_z_axis (a : ℝ) : length ⟨0, 0, a⟩ = |a| := by
  have h : dot (⟨0, 0, a⟩ : Vec3) ⟨0, 0, a⟩ = a ^ 2 := by
    simp only [dot]
    ring
  rw [length, h, Real.sqrt_sq_eq_abs]

theorem length_y_unit : length ⟨0, 1, 0⟩ = 1 := by
  have h : dot (⟨0, 1, 0⟩ : Vec3) ⟨0, 1, 0⟩ = 1 := by
    simp only [dot]
    ring
  rw [length, h, Real.sqrt_one]

theorem InitCamera_CamDir : InitCamera.CamDir = ⟨0, 0, -1⟩ := by
  have hsub : constants.Target - constants.Eye = ⟨0, 0, -1.5⟩ := by
    ext <;> simp [constants.Target, constants.Eye] <;> norm_num
  show Vec3.normalize (constants.Target - constants.Eye) = ⟨0, 0, -1⟩
  rw [hsub]
  unfold Vec3.normalize
  rw [length_z_axis, abs_of_neg (by norm_num : (-1.5 : ℝ) < 0)]
  ext <;> norm_num

theorem InitCamera_CamUp : InitCamera.CamUp = ⟨0, 1, 0⟩ := by
  show Vec3.normalize (constants.Up - dot constants.Up InitCamera.CamDir • InitCamera.CamDir)
    = ⟨0, 1, 0⟩
  rw [InitCamera_CamDir]
  have hsub : constants.Up - dot constants.Up (⟨0, 0, -1⟩ : Vec3) • (⟨0, 0, -1⟩ : Vec3)
      = ⟨0, 1, 0⟩ := by
    ext <;> simp [constants.Up, dot]
  rw [hsub]
  unfold Vec3.normalize
  rw [length_y_unit]
  ext <;> norm_num

theorem InitCamera_CamRight : InitCamera.CamRight = ⟨1, 0, 0⟩ := by
  show cross InitCamera.CamDir InitCamera.CamUp = ⟨1, 0, 0⟩
  rw [InitCamera_CamDir, InitCamera_CamUp]
  ext <;> simp [cross]

theorem half_FOV : constants.FOV * 0.5 = Real.pi / 8 := by
  unfold constants.FOV
  ring

/-- Bounds on `tan (FOV / 2) = tan (π / 8)`. -/
theorem tan_half_FOV_bounds :
    3 / 8 < Real.tan (constants.FOV * 0.5) ∧ Real.tan (constants.FOV * 0.5) < 1 := by
  rw [half_FOV]
  have hpi3 := Real.pi_gt_three
  have hpi4 := Real.pi_le_four
  have hpos : 0 < Real.pi / 8 := by linarith
  have hlt : Real.pi / 8 < Real.pi / 2 := by linarith
  constructor
  · have := Real.lt_tan hpos hlt
    linarith
  · rw [← Real.tan_pi_div_four]
    apply Real.tan_lt_tan_of_nonneg_of_lt_pi_div_two hpos.le (by linarith) (by linarith)

/-- The vector `CreateRay` normalises, for the configured camera. -/
theorem CreateRayVec_InitCamera (x y : ℝ) :
    CreateRayVec InitCamera x y
      = ⟨x * Real.tan (constants.FOV * 0.5), y * Real.tan (constants.FOV * 0.5), -1⟩ := by
  unfold CreateRayVec
  rw [InitCamera_CamDir, InitCamera_CamUp, InitCamera_CamRight]
  ext <;> simp [constants.Width, constants.Height]

theorem CreateRayVec_InitCamera_length (x y : ℝ) : 1 ≤ length (CreateRayVec InitCamera x y) := by
  rw [CreateRayVec_InitCamera]
  apply Real.le_sqrt_of_sq_le
  simp only [dot]
  nlinarith [sq_nonneg (x * Real.tan (constants.FOV * 0.5)),
    sq_nonneg (y * Real.tan (constants.FOV * 0.5))]

/-- The point at parameter `s * length v` of a pixel ray, `v` the vector normalised by
`CreateRay`, is `Eye + s * v`. -/
theorem pixel_ray_point (x y s : ℝ) :
    (CreateRay InitCamera x y).org
      + (s * length (CreateRayVec InitCamera x y)) • (CreateRay InitCamera x y).dir
      = constants.Eye + s • CreateRayVec InitCamera x y := by
  have hL : 0 < length (CreateRayVec InitCamera x y) :=
    lt_of_lt_of_le one_pos (CreateRayVec_InitCamera_length x y)
  show constants.Eye + (s * length (CreateRayVec InitCamera x y))
    • Vec3.normalize (CreateRayVec InitCamera x y) = _
  rw [normalize_eq_smul, smul_smul_eq]
  have : s * length (CreateRayVec InitCamera x y) * (1 / length (CreateRayVec InitCamera x y))
      = s := by
    field_simp
  rw [this]

theorem pixel_ray_unit (x y : ℝ) : length (CreateRay InitCamera x y).dir = 1 := by
  have hL : 0 < length (CreateRayVec InitCamera x y) :=
    lt_of_lt_of_le one_pos (CreateRayVec_InitCamera_length x y)
  exact length_normalize _ (ne_zero_of_length_pos hL)

/-- Where `x < 0.25` the larger sphere is the nearer one. -/
theorem sdf_eq_big_of_x_lt (q : Vec3) (hx : q.x < 0.25) : sdf q = length q - 0.4 := by
  rw [sdf_eq]
  apply min_eq_left
  have h : length q ≤ length (q - smallCentre) := by
    rw [length_le_length_iff]
    simp only [dot, Vec3.sub_x, Vec3.sub_y, Vec3.sub_z, smallCentre]
    nlinarith
  linarith

theorem sdf_Eye_nonneg : 0 ≤ sdf constants.Eye := by
  rw [sdf_eq]
  apply le_min
  · have : (0.4 : ℝ) ≤ length constants.Eye := by
      apply Real.le_sqrt_of_sq_le
      norm_num [dot, constants.Eye]
    linarith
  · have : (0.2 : ℝ) ≤ length (constants.Eye - smallCentre) := by
      apply Real.le_sqrt_of_sq_le
      norm_num [dot, constants.Eye, smallCentre]
    linarith

theorem ToNDC_centre : ToNDC ((256 : ℤ) : ℝ) ((512 : ℤ) : ℝ) = 1 / 512 := by
  unfold ToNDC
  norm_num

/-- The ray through the centre pixel: facts about the vector `CreateRay` normalises. -/
theorem centre_vec :
    CreateRayVec InitCamera (1 / 512) (1 / 512)
      = ⟨1 / 512 * Real.tan (constants.FOV * 0.5),
        1 / 512 * Real.tan (constants.FOV * 0.5), -1⟩ ∧
    0 ≤ 1 / 512 * Real.tan (constants.FOV * 0.5) ∧
    1 / 512 * Real.tan (constants.FOV * 0.5) ≤ 1 / 512 ∧
    1 ≤ length (CreateRayVec InitCamera (1 / 512) (1 / 512)) ∧
    length (CreateRayVec InitCamera (1 / 512) (1 / 512)) < 2 := by
  obtain ⟨hk0, hk1⟩ := tan_half_FOV_bounds
  refine ⟨CreateRayVec_InitCamera _ _, by linarith, by linarith,
    CreateRayVec_InitCamera_length _ _, ?_⟩
  rw [CreateRayVec_InitCamera, length, Real.sqrt_lt' (by norm_num)]
  simp only [dot]
  nlinarith

/-- The centre pixel ray is reported as a hit, at a point where the larger sphere is the
nearer one. -/
theorem centre_pixel_trace :
    ∃ t, SphereTraceLoop (pixelRay 256 256) constants.tMin = some t ∧
      t < constants.tMax ∧
      |length ((pixelRay 256 256).org + t • (pixelRay 256 256).dir) - 0.4| < 0.001 := by
  obtain ⟨hv, hn0, hn1, hL1, hL2⟩ := centre_vec
  have hray : pixelRay 256 256 = CreateRay InitCamera (1 / 512) (1 / 512) := by
    unfold pixelRay
    rw [show constants.Width = 512 from rfl, show constants.Height = 512 from rfl, ToNDC_centre]
  rw [hray]
  have hdir := pixel_ray_unit (1 / 512) (1 / 512)
  have hend : sdf ((CreateRay InitCamera (1 / 512) (1 / 512)).org
      + (1.5 * length (CreateRayVec InitCamera (1 / 512) (1 / 512)))
        • (CreateRay InitCamera (1 / 512) (1 / 512)).dir) ≤ 0 := by
    rw [pixel_ray_point, hv, sdf_eq]
    apply le_trans (min_le_left _ _)
    have : length (constants.Eye + (1.5 : ℝ) • (⟨1 / 512 * Real.tan (constants.FOV * 0.5),
        1 / 512 * Real.tan (constants.FOV * 0.5), -1⟩ : Vec3)) ≤ 0.4 := by
      rw [length, Real.sqrt_le_iff]
      refine ⟨by norm_num, ?_⟩
      simp only [dot, constants.Eye, Vec3.add_x, Vec3.add_y, Vec3.add_z, Vec3.smul_x,
        Vec3.smul_y, Vec3.smul_z]
      nlinarith
    linarith
  obtain ⟨t, ht, _⟩ := SphereTraceLoop_hit_of_sign_change _ hdir
    (1.5 * length (CreateRayVec InitCamera (1 / 512) (1 / 512))) (by linarith)
    (by norm_num [constants.tMax]; linarith) sdf_Eye_nonneg hend
  obtain ⟨ht0, ht1, hhit⟩ := SphereTraceLoop_some _ _ t ht
  refine ⟨t, ht, ht1, ?_⟩
  have hx : ((CreateRay InitCamera (1 / 512) (1 / 512)).org
      + t • (CreateRay InitCamera (1 / 512) (1 / 512)).dir).x < 0.25 := by
    show constants.Eye.x + t * ((CreateRayVec InitCamera (1 / 512) (1 / 512)).x
      / length (CreateRayVec InitCamera (1 / 512) (1 / 512))) < 0.25
    have hvx : (CreateRayVec InitCamera (1 / 512) (1 / 512)).x
        = 1 / 512 * Real.tan (constants.FOV * 0.5) := by rw [hv]
    rw [hvx]
    have hq : 1 / 512 * Real.tan (constants.FOV * 0.5)
        / length (CreateRayVec InitCamera (1 / 512) (1 / 512)) ≤ 1 / 512 :=
      le_trans (div_le_self hn0 hL1) hn1
    have hq0 : 0 ≤ 1 / 512 * Real.tan (constants.FOV * 0.5)
        / length (CreateRayVec InitCamera (1 / 512) (1 / 512)) :=
      div_nonneg hn0 (by linarith)
    have ht0' : 0 ≤ t := by
      simp only [constants.tMin] at ht0
      linarith
    have ht1' : t < 10 := by
      simp only [constants.tMax] at ht1
      linarith
    have hE : constants.Eye.x = 0.1 := rfl
    rw [hE]
    nlinarith
  rw [sdf_eq_big_of_x_lt _ hx] at hhit
  exact hhit

/-- Claim C13.  With the configured constants the ray through the centre pixel
`(256, 256)` is a hit: `SphereTrace` returns `t < tMax`, from the hit branch of its loop,
and the hit point `org + t * dir` lies within `0.001` of the surface of the larger sphere,
of centre `0` and radius `0.4`. -/
theorem centre_pixel_hits_big_sphere :
    SphereTrace (pixelRay 256 256) < constants.tMax ∧
    SphereTraceLoop (pixelRay 256 256) constants.tMin = some (SphereTrace (pixelRay 256 256)) ∧
    |sphereSDF ((pixelRay 256 256).org
      + SphereTrace (pixelRay 256 256) • (pixelRay 256 256).dir) 0 0.4| < 0.001 := by
  obtain ⟨t, ht, ht1, hnear⟩ := centre_pixel_trace
  rw [SphereTrace_of_some _ t ht]
  refine ⟨ht1, ht, ?_⟩
  rw [sphereSDF, Vec3.sub_zero_eq]
  exact hnear

/-! ## The corner pixels -/

theorem quadratic_nonneg (A B C s : ℝ) (hA : 0 < A) (hdisc : B ^ 2 ≤ A * C) :
    0 ≤ A * s ^ 2 + 2 * B * s + C := by
  have h := sq_nonneg (A * s + B)
  have h2 : 0 ≤ A * (A * s ^ 2 + 2 * B * s + C) := by nlinarith only [h, hdisc]
  exact (mul_nonneg_iff_of_pos_left hA).mp h2

theorem eq_or_eq_neg_of_sq (v a : ℝ) (h : v ^ 2 = a ^ 2) : v = a ∨ v = -a := by
  have h0 : (v - a) * (v + a) = 0 := by
    ring_nf
    linarith
  rcases mul_eq_zero.mp h0 with h1 | h1
  · left
    linarith
  · right
    linarith

/-- A line from `Eye` along `(vx, vy, -1)` with `|vx| = |vy| = a ≥ 0.374` stays at least
`0.401` from the origin and at least `0.201` from `(0.5, 0, 0)`. -/
theorem corner_line_clear (a vx vy s : ℝ) (ha : 0.374 ≤ a) (hvx : vx ^ 2 = a ^ 2)
    (hvy : vy ^ 2 = a ^ 2) :
    0.401 ^ 2 ≤ (0.1 + s * vx) ^ 2 + (0 + s * vy) ^ 2 + (1.5 + s * -1) ^ 2 ∧
    0.201 ^ 2 ≤ (0.1 + s * vx - 0.5) ^ 2 + (0 + s * vy - 0) ^ 2 + (1.5 + s * -1 - 0) ^ 2 := by
  have hA : 0 < 1 + 2 * a ^ 2 := by positivity
  have haa : 0.374 * a ≤ a ^ 2 := by nlinarith only [ha]
  constructor
  · have hd : (0.1 * vx - 1.5) ^ 2 ≤ (1 + 2 * a ^ 2) * 2.099199 := by
      rcases eq_or_eq_neg_of_sq vx a hvx with h | h <;> rw [h] <;> nlinarith only [ha, haa]
    have hq := quadratic_nonneg (1 + 2 * a ^ 2) (0.1 * vx - 1.5) 2.099199 s hA hd
    nlinarith only [hq, hvx, hvy]
  · have hd : (-0.4 * vx - 1.5) ^ 2 ≤ (1 + 2 * a ^ 2) * 2.369599 := by
      rcases eq_or_eq_neg_of_sq vx a hvx with h | h <;> rw [h] <;> nlinarith only [ha, haa]
    have hq := quadratic_nonneg (1 + 2 * a ^ 2) (-0.4 * vx - 1.5) 2.369599 s hA hd
    nlinarith only [hq, hvx, hvy]

/-- On the line from `Eye` through a corner of the image plane the scene function is at
least `eps`. -/
theorem corner_sdf_far (nx ny s : ℝ) (hnx : nx ^ 2 = (511 / 512) ^ 2)
    (hny : ny ^ 2 = (511 / 512) ^ 2) :
    eps ≤ sdf (constants.Eye + s • CreateRayVec InitCamera nx ny) := by
  obtain ⟨hk0, hk1⟩ := tan_half_FOV_bounds
  have ha : (0.374 : ℝ) ≤ 511 / 512 * Real.tan (constants.FOV * 0.5) := by linarith
  have hvx : (nx * Real.tan (constants.FOV * 0.5)) ^ 2
      = (511 / 512 * Real.tan (constants.FOV * 0.5)) ^ 2 := by
    rw [mul_pow, mul_pow, hnx]
  have hvy : (ny * Real.tan (constants.FOV * 0.5)) ^ 2
      = (511 / 512 * Real.tan (constants.FOV * 0.5)) ^ 2 := by
    rw [mul_pow, mul_pow, hny]
  obtain ⟨h1, h2⟩ := corner_line_clear _ _ _ s ha hvx hvy
  rw [CreateRayVec_InitCamera, sdf_eq]
  apply le_min
  · have : (0.401 : ℝ) ≤ length (constants.Eye + s • (⟨nx * Real.tan (constants.FOV * 0.5),
        ny * Real.tan (constants.FOV * 0.5), -1⟩ : Vec3)) := by
      apply Real.le_sqrt_of_sq_le
      simp only [dot, constants.Eye, Vec3.add_x, Vec3.add_y, Vec3.add_z, Vec3.smul_x,
        Vec3.smul_y, Vec3.smul_z]
      nlinarith only [h1]
    simp only [eps]
    linarith
  · have : (0.201 : ℝ) ≤ length (constants.Eye + s • (⟨nx * Real.tan (constants.FOV * 0.5),
        ny * Real.tan (constants.FOV * 0.5), -1⟩ : Vec3) - smallCentre) := by
      apply Real.le_sqrt_of_sq_le
      simp only [dot, constants.Eye, smallCentre, Vec3.add_x, Vec3.add_y, Vec3.add_z,
        Vec3.sub_x, Vec3.sub_y, Vec3.sub_z, Vec3.smul_x, Vec3.smul_y, Vec3.smul_z]
      nlinarith only [h2]
    simp only [eps]
    linarith

/-- A ray through a corner of the image plane misses. -/
theorem corner_ray_miss (nx ny : ℝ) (hnx : nx ^ 2 = (511 / 512) ^ 2)
    (hny : ny ^ 2 = (511 / 512) ^ 2) :
    SphereTraceLoop (CreateRay InitCamera nx ny) constants.tMin = none ∧
    SphereTrace (CreateRay InitCamera nx ny) = FLT_MAX := by
  apply SphereTrace_miss_of_far
  intro t _
  have hL : 0 < length (CreateRayVec InitCamera nx ny) :=
    lt_of_lt_of_le one_pos (CreateRayVec_InitCamera_length nx ny)
  have hp := pixel_ray_point nx ny (t / length (CreateRayVec InitCamera nx ny))
  rw [div_mul_cancel₀ t hL.ne.symm] at hp
  rw [hp]
  exact corner_sdf_far nx ny _ hnx hny

theorem ToNDC_corner_sq (x : ℤ) (hx : x = 0 ∨ x = 511) :
    ToNDC (x : ℝ) ((512 : ℤ) : ℝ) ^ 2 = (511 / 512) ^ 2 := by
  rcases hx with h | h <;> rw [h] <;> unfold ToNDC <;> norm_num

theorem background_byte : floatToU8 (255.0 * clamp 0.98 0.0 1.0) = 249 := by
  have hc : clamp 0.98 0.0 1.0 = 0.98 := by
    rw [clamp_eq, max_eq_left (by norm_num), min_eq_left (by norm_num)]
  have hf : ⌊(255.0 : ℝ) * 0.98⌋ = 249 := by
    rw [Int.floor_eq_iff]
    constructor <;> norm_num
  rw [hc]
  unfold floatToU8 truncToInt
  rw [if_pos (by norm_num), hf]
  norm_num

theorem background_stored :
    toU8Vec3 ((255.0 : ℝ) • clampVec constants.BackgroundColor 0.0 1.0) = ⟨249, 249, 249⟩ := by
  unfold toU8Vec3 clampVec
  simp only [Vec3.smul_x, Vec3.smul_y, Vec3.smul_z, constants.BackgroundColor]
  rw [background_byte]

/-- Claim C14.  With the configured constants, for each of the four corner pixels,
`x` and `y` in `{0, 511}`, `SphereTrace` returns the miss sentinel and the stored 8-bit
colour is the background colour `(0.98, 0.98, 0.98)` scaled to 8 bits, `(249, 249, 249)`:
every channel is within `1` of `250`. -/
theorem corner_pixels_background (x y : ℤ) (hx : x = 0 ∨ x = 511) (hy : y = 0 ∨ y = 511) :
    SphereTrace (pixelRay x y) = FLT_MAX ∧
    pixelColor x y = constants.BackgroundColor ∧
    pixelStored x y = toU8Vec3 ((255.0 : ℝ) • clampVec constants.BackgroundColor 0.0 1.0) ∧
    pixelStored x y = ⟨249, 249, 249⟩ ∧
    |(pixelStored x y).x - 250| ≤ 1 ∧ |(pixelStored x y).y - 250| ≤ 1 ∧
    |(pixelStored x y).z - 250| ≤ 1 := by
  have hmiss : SphereTrace (pixelRay x y) = FLT_MAX :=
    (corner_ray_miss _ _ (ToNDC_corner_sq x hx) (ToNDC_corner_sq y hy)).2
  have hcolor : pixelColor x y = constants.BackgroundColor := by
    apply pixelColor_miss
    rw [hmiss]
    exact not_lt.mpr tMax_lt_FLT_MAX.le
  have hstored : pixelStored x y
      = toU8Vec3 ((255.0 : ℝ) • clampVec constants.BackgroundColor 0.0 1.0) := by
    unfold pixelStored
    rw [hcolor]
  have h249 : pixelStored x y = ⟨249, 249, 249⟩ := by
    rw [hstored, background_stored]
  refine ⟨hmiss, hcolor, hstored, h249, ?_, ?_, ?_⟩ <;> rw [h249] <;> decide

theorem corner_pixels_background_witness :
    SphereTrace (pixelRay 0 511) = FLT_MAX ∧
    pixelColor 0 511 = constants.BackgroundColor ∧
    pixelStored 0 511 = toU8Vec3 ((255.0 : ℝ) • clampVec constants.BackgroundColor 0.0 1.0) ∧
    pixelStored 0 511 = ⟨249, 249, 249⟩ ∧
    |(pixelStored 0 511).x - 250| ≤ 1 ∧ |(pixelStored 0 511).y - 250| ≤ 1 ∧
    |(pixelStored 0 511).z - 250| ≤ 1 :=
  corner_pixels_background 0 511 (Or.inl rfl) (Or.inr rfl)

end SdfRaycaster

end
